import Mathlib

/-!
Verification of the SQLite CHECK-constraint enum extractor
(`src/introspector/dialects/sqlite/sqlite-introspector.ts`).

Strings are modelled as `List Char`.  JavaScript string operations used by
the source (`replaceAll(/\s+/g, ' ')`, `toLowerCase`, `indexOf`, `trim`,
the regex `/^\s*([A-Z_a-z]\w*)\s+in\s*\(\s*(.+?)\s*\)\s*$/`, and
`Array.prototype.sort()`) are embedded below, each with a comment naming
the source line it renders.  `toLowerCase` is modelled on the ASCII range
(the only characters exercised by the program's keywords and the claims).
-/

namespace KyselyCodegen

/-- The JavaScript `\s` character class (ECMAScript WhiteSpace ∪
LineTerminator), as used both by the normalizing `replaceAll(/\s+/g, ' ')`
and by `String.prototype.trim`.  Code points are compared as naturals. -/
def jsIsSpace (c : Char) : Bool :=
  c.toNat = 32 || c.toNat = 9 || c.toNat = 10 || c.toNat = 13 ||
  c.toNat = 11 || c.toNat = 12 ||
  c.toNat = 0xa0 || c.toNat = 0x1680 ||
  (0x2000 ≤ c.toNat && c.toNat ≤ 0x200a) ||
  c.toNat = 0x2028 || c.toNat = 0x2029 || c.toNat = 0x202f ||
  c.toNat = 0x205f || c.toNat = 0x3000 || c.toNat = 0xfeff

/-- Characters NOT matched by `.` in a JavaScript regex without the `s`
flag: the ECMAScript LineTerminator set. -/
def jsIsLineTerm (c : Char) : Bool :=
  c.toNat = 10 || c.toNat = 13 || c.toNat = 0x2028 || c.toNat = 0x2029

/-- ASCII lower-casing of one character, modelling
`String.prototype.toLowerCase` on the ASCII range. -/
def asciiLower (c : Char) : Char :=
  if 65 ≤ c.toNat && c.toNat ≤ 90 then Char.ofNat (c.toNat + 32) else c

/-- `sql.replaceAll(/\s+/g, ' ')`: every maximal run of whitespace is
replaced by a single space (source line 15, first half).  `prevWs`
records whether the previous character was whitespace, so only the first
character of each whitespace run emits the replacement space. -/
def collapseWsAux (prevWs : Bool) : List Char → List Char
  | [] => []
  | c :: cs =>
    if jsIsSpace c then
      if prevWs then collapseWsAux true cs else ' ' :: collapseWsAux true cs
    else c :: collapseWsAux false cs

/-- Source line 15: `sql.replaceAll(/\s+/g, ' ').toLowerCase()`. -/
def normalizeSql (sql : List Char) : List Char :=
  (collapseWsAux false sql).map asciiLower

/-- `needle` occurs in `hay` at position `i`. -/
def occursAt (hay needle : List Char) (i : Nat) : Bool :=
  needle.isPrefixOf (hay.drop i)

/-- JavaScript `hay.indexOf(needle, start)` (for non-empty `needle`):
the least position `i ≥ start` at which `needle` occurs, if any. -/
def firstOccFrom (hay needle : List Char) (start : Nat) : Option Nat :=
  (List.range (hay.length + 1)).find?
    (fun i => decide (start ≤ i) && occursAt hay needle i)

/-- The loop body of `extractParenthesesContent` (source lines 53-69):
depth counting over the remaining characters, accumulating the content.
`depth` is an integer exactly as in the source. -/
def extractParensAux : Int → List Char → List Char → Option (List Char)
  | _, _, [] => none
  | depth, acc, c :: rest =>
    if c = '(' then
      extractParensAux (depth + 1) (if depth + 1 > 1 then acc ++ [c] else acc) rest
    else if c = ')' then
      if depth - 1 = 0 then some acc
      else extractParensAux (depth - 1) (acc ++ [c]) rest
    else if depth > 0 then extractParensAux depth (acc ++ [c]) rest
    else extractParensAux depth acc rest

/-- `CheckConstraintParser.extractParenthesesContent(sql, startIndex)`
(source lines 49-72).  Returns `none` for unmatched parentheses. -/
def extractParenthesesContent (sql : List Char) (startIndex : Nat) : Option (List Char) :=
  extractParensAux 0 [] (sql.drop startIndex)

/-- JavaScript `String.prototype.trim`. -/
def jsTrim (s : List Char) : List Char :=
  ((s.dropWhile jsIsSpace).reverse.dropWhile jsIsSpace).reverse

/-- The character-by-character loop of `parseValueList` (source lines
98-120) plus its final-value flush (lines 122-124).  The state is the
active quote character (`none` = unquoted) and the accumulated current
value; the doubled-quote case consumes two characters (`i++`). -/
def pvAux : Option Char → List Char → List Char → List (List Char)
  | _, cur, [] =>
    (match jsTrim cur with
     | [] => []
     | t => [t])
  | none, cur, c :: rest =>
    if c = '"' || c = '\'' then pvAux (some c) cur rest
    else if c = ',' then
      (match jsTrim cur with
       | [] => pvAux none [] rest
       | t => t :: pvAux none [] rest)
    else pvAux none (cur ++ [c]) rest
  | some q, cur, [c] =>
    if c = q then pvAux none cur []
    else pvAux (some q) (cur ++ [c]) []
  | some q, cur, c :: c2 :: rest2 =>
    if c = q then
      if c2 = q then pvAux (some q) (cur ++ [c]) rest2
      else pvAux none cur (c2 :: rest2)
    else pvAux (some q) (cur ++ [c]) (c2 :: rest2)

/-- `CheckConstraintParser.parseValueList` (source lines 92-127). -/
def parseValueList (valuesString : List Char) : List (List Char) :=
  pvAux none [] valuesString

/-- JS regex `\w` class: `[A-Za-z0-9_]`. -/
def isWordChar (c : Char) : Bool :=
  (97 ≤ c.toNat && c.toNat ≤ 122) || (65 ≤ c.toNat && c.toNat ≤ 90) ||
  (48 ≤ c.toNat && c.toNat ≤ 57) || c.toNat = 95

/-- The `[A-Z_a-z]` class opening the identifier group of the regex. -/
def isIdentStart (c : Char) : Bool :=
  (97 ≤ c.toNat && c.toNat ≤ 122) || (65 ≤ c.toNat && c.toNat ≤ 90) ||
  c.toNat = 95

/-- The lazy tail `(.+?)\s*` of the regex matched against a fixed
remainder: the shortest non-empty prefix (each character matched by `.`,
i.e. not a line terminator) whose remainder is all whitespace, exactly
the order a backtracking engine explores a lazy quantifier. -/
def tryCapture : List Char → Option (List Char)
  | [] => none
  | c :: rest =>
    if jsIsLineTerm c then none
    else if rest.all jsIsSpace then some [c]
    else (tryCapture rest).map (fun cap => c :: cap)

/-- The `\s*(.+?)\s*` segment of the regex matched against a fixed
remainder `u`: the greedy leading `\s*` is explored longest-first, and
for each leading length the lazy capture shortest-first — the
backtracking order of the JavaScript engine. -/
def matchWsCapture : List Char → Option (List Char)
  | [] => none
  | c :: rest =>
    if jsIsSpace c then
      match matchWsCapture rest with
      | some cap => some cap
      | none => tryCapture (c :: rest)
    else tryCapture (c :: rest)

/-- The anchored regex `/^\s*([A-Z_a-z]\w*)\s+in\s*\(\s*(.+?)\s*\)\s*$/`
of source line 79, returning the two capture groups.  The leading `\s*`,
the identifier `\w*`, the `\s+` and the `\s*\(` segments are each
deterministic (their character classes are disjoint from what must
follow), so they are rendered by `dropWhile`/`takeWhile`; `\)\s*$` forces
the consumed `)` to be the last non-whitespace character; the remaining
nondeterminism `\s*(.+?)\s*` is resolved by `matchWsCapture` in engine
order.  This definition is the part of the regex after the leading
`^\s*`, taking the already-stripped text. -/
def matchAfterLeadWs (s1 : List Char) : Option (List Char × List Char) :=
  match s1 with
  | [] => none
  | c :: r1 =>
    if isIdentStart c then
      let ident := c :: r1.takeWhile isWordChar
      match r1.dropWhile isWordChar with
      | c2 :: r2 =>
        if jsIsSpace c2 then
          match r2.dropWhile jsIsSpace with
          | ci1 :: ci2 :: s4 =>
            if ci1 = 'i' ∧ ci2 = 'n' then
              match s4.dropWhile jsIsSpace with
              | cp :: r5 =>
                if cp = '(' then
                  match r5.reverse.dropWhile jsIsSpace with
                  | cr :: revBody =>
                    if cr = ')' then
                      (matchWsCapture revBody.reverse).map (fun cap => (ident, cap))
                    else none
                  | [] => none
                else none
              | [] => none
            else none
          | _ => none
        else none
      | [] => none
    else none

/-- The full anchored regex: its leading `^\s*` followed by
`matchAfterLeadWs`. -/
def matchInPattern (content : List Char) : Option (List Char × List Char) :=
  matchAfterLeadWs (content.dropWhile jsIsSpace)

/-- A parsed membership constraint: `{ column, values }`. -/
structure EnumConstraint where
  column : List Char
  values : List (List Char)
deriving DecidableEq, Repr

/-- `CheckConstraintParser.parseInConstraint` (source lines 74-90). -/
def parseInConstraint (constraintContent : List Char) : Option EnumConstraint :=
  match matchInPattern constraintContent with
  | none => none
  | some (columnName, valuesString) =>
    let values := parseValueList valuesString
    if 0 < values.length then some ⟨columnName, values⟩ else none

/-- The needle of `normalizedSql.indexOf('check', searchIndex)`. -/
def checkNeedle : List Char := ['c', 'h', 'e', 'c', 'k']

/-- The needle of `normalizedSql.indexOf('(', checkIndex)`. -/
def parenNeedle : List Char := ['(']

/-- The `while (true)` scan loop of `parseEnumConstraints` (source lines
18-44), with explicit fuel: `none` means the fuel ran out before the loop
broke.  Each successful iteration appends at most one constraint and
resumes at `openParenIndex + 1` (unmatched parentheses) or
`openParenIndex + content.length + 2` (past the matched `)`). -/
def scanLoopF (fuel : Nat) (normalizedSql : List Char) (searchIndex : Nat) :
    Option (List EnumConstraint) :=
  match fuel with
  | 0 => none
  | fuel + 1 =>
    match firstOccFrom normalizedSql checkNeedle searchIndex with
    | none => some []
    | some checkIndex =>
      match firstOccFrom normalizedSql parenNeedle checkIndex with
      | none => some []
      | some openParenIndex =>
        match extractParenthesesContent normalizedSql openParenIndex with
        | none => scanLoopF fuel normalizedSql (openParenIndex + 1)
        | some constraintContent =>
          match scanLoopF fuel normalizedSql
              (openParenIndex + constraintContent.length + 2) with
          | none => none
          | some rest =>
            match parseInConstraint constraintContent with
            | some c => some (c :: rest)
            | none => some rest

/-- `CheckConstraintParser.parseEnumConstraints` (source lines 9-47).
The fuel `length + 1` is proved sufficient in `scanLoopF_isSome`. -/
def parseEnumConstraints (sql : List Char) : List EnumConstraint :=
  (scanLoopF ((normalizeSql sql).length + 1) (normalizeSql sql) 0).getD []

/-- The default comparator of `Array.prototype.sort()`: lexicographic
string order by character code (Boolean-valued, total). -/
def strLe : List Char → List Char → Bool
  | [], _ => true
  | _ :: _, [] => false
  | a :: as, b :: bs =>
    if a.toNat < b.toNat then true
    else if b.toNat < a.toNat then false
    else strLe as bs

/-- `strLe` as a relation, for use with `List.insertionSort`. -/
def strLeP (a b : List Char) : Prop := strLe a b = true

instance : DecidableRel strLeP := fun a b =>
  inferInstanceAs (Decidable (strLe a b = true))

/-- Source line 179: `[...constraint.values].sort()` — sorting the value
list ascending in the JS default (lexicographic) order. -/
def sortStrings (l : List (List Char)) : List (List Char) :=
  l.insertionSort strLeP

/-- Modelled from the spec: `EnumCollection` is imported from
`../../enum-collection`, which is not under `src/`.  Per the spec (§3,
§4.4, §4.5) it is a mapping from `"table.column"` keys to string lists:
`set` stores a value list under a key, overwriting any prior entry for
that exact key, and `get` returns the stored list or null. -/
def EnumCollection : Type := List Char → Option (List (List Char))

/-- Modelled from the spec: a freshly constructed, empty collection. -/
def EnumCollection.empty : EnumCollection := fun _ => none

/-- Modelled from the spec: `enums.set(key, values)` (overwrite). -/
def EnumCollection.set (m : EnumCollection) (k : List Char)
    (vs : List (List Char)) : EnumCollection :=
  fun x => if x = k then some vs else m x

/-- Modelled from the spec: `enums.get(key)` (stored list or null). -/
def EnumCollection.get (m : EnumCollection) (k : List Char) :
    Option (List (List Char)) := m k

/-- One row of the `sqlite_master` query (source lines 162-168): a table
name and its raw `CREATE TABLE` SQL text (`none` models SQL NULL). -/
structure SqliteMasterRow where
  name : List Char
  sql : Option (List Char)

/-- `SqliteIntrospector.introspectCheckConstraintEnums` (source lines
158-185), applied to the fetched rows.  `if (!row.sql) continue` skips
both null and empty-string SQL (JavaScript falsiness). -/
def introspectCheckConstraintEnums (rows : List SqliteMasterRow) : EnumCollection :=
  rows.foldl
    (fun enums row =>
      match row.sql with
      | none => enums
      | some sqlText =>
        if sqlText = [] then enums
        else
          (parseEnumConstraints sqlText).foldl
            (fun m constraint =>
              m.set (row.name ++ '.' :: constraint.column)
                (sortStrings constraint.values))
            enums)
    EnumCollection.empty

/-- An externally produced column descriptor.  `rest` stands for all its
fields other than `name`, which this code never inspects (they are
carried through by the `...column` spread). -/
structure ColumnMetadata (α : Type) where
  name : List Char
  rest : α
deriving DecidableEq

/-- A column descriptor after enrichment: the original fields plus the
single added `enumValues` field. -/
structure EnrichedColumn (α : Type) where
  name : List Char
  rest : α
  enumValues : Option (List (List Char))
deriving DecidableEq

/-- An externally produced table descriptor; `rest` stands for all its
fields other than `name` and `columns` (carried through by `...table`). -/
structure TableMetadata (τ α : Type) where
  name : List Char
  columns : List (ColumnMetadata α)
  rest : τ
deriving DecidableEq

/-- A table descriptor after enrichment. -/
structure EnrichedTable (τ α : Type) where
  name : List Char
  columns : List (EnrichedColumn α)
  rest : τ
deriving DecidableEq

/-- Modelled from the spec: `DatabaseMetadata` (imported from
`../../metadata/database-metadata`, not under `src/`) is the output
container holding the enriched tables. -/
structure DatabaseMetadata (τ α : Type) where
  tables : List (EnrichedTable τ α)
deriving DecidableEq

/-- `SqliteIntrospector.createDatabaseMetadata` (source lines 131-150):
map every table, map every column, attach
`enumValues = enums.get(table.name + "." + column.name)`. -/
def createDatabaseMetadata {τ α : Type} (enums : EnumCollection)
    (rawTables : List (TableMetadata τ α)) : DatabaseMetadata τ α :=
  ⟨rawTables.map fun table =>
    { name := table.name
      rest := table.rest
      columns := table.columns.map fun column =>
        let enumKey := table.name ++ '.' :: column.name
        { name := column.name
          rest := column.rest
          enumValues := enums.get enumKey } }⟩

/-- `SqliteIntrospector.introspect` (source lines 152-156), with the two
awaited external fetches (`getTables`, the `sqlite_master` query) passed
in as data. -/
def introspect {τ α : Type} (rows : List SqliteMasterRow)
    (tables : List (TableMetadata τ α)) : DatabaseMetadata τ α :=
  createDatabaseMetadata (introspectCheckConstraintEnums rows) tables

/-- Strip trailing whitespace (the right half of `jsTrim`). -/
def stripTrailWs (x : List Char) : List Char :=
  (x.reverse.dropWhile jsIsSpace).reverse

/-- Modelled from the spec (§4.2): the Membership-Clause Recognizer as
the spec words it — the entire span, after trimming, must match
`<identifier> <whitespace> IN <optional-whitespace> ( <body> )`
case-insensitively, where `<identifier>` is a letter-or-underscore start
followed by letters/digits/underscores, and `<body>` is everything up to
the final `)` with no trailing characters after it; `<body>` is handed to
the Value-List Tokenizer and zero values give `none`. -/
def specRecognize (span : List Char) : Option EnumConstraint :=
  match jsTrim span with
  | [] => none
  | c :: r1 =>
    if isIdentStart c then
      let ident := c :: r1.takeWhile isWordChar
      match r1.dropWhile isWordChar with
      | c2 :: r2 =>
        if jsIsSpace c2 then
          match r2.dropWhile jsIsSpace with
          | ci1 :: ci2 :: s4 =>
            if asciiLower ci1 = 'i' ∧ asciiLower ci2 = 'n' then
              match s4.dropWhile jsIsSpace with
              | cp :: r5 =>
                if cp = '(' then
                  match r5.getLast? with
                  | some lastc =>
                    if lastc = ')' then
                      let values := parseValueList r5.dropLast
                      if 0 < values.length then some ⟨ident, values⟩ else none
                    else none
                  | none => none
                else none
              | [] => none
            else none
          | _ => none
        else none
      | [] => none
    else none

/-- A comma-space separated, single-quoted rendering of a value list:
`'v1', 'v2', ...` — the body of a well-formed membership clause. -/
def valueListLiteral : List (List Char) → List Char
  | [] => []
  | [v] => '\'' :: (v ++ ['\''])
  | v :: vs => ('\'' :: (v ++ ['\''])) ++ (',' :: ' ' :: valueListLiteral vs)

/-- A well-formed span of shape `<col> in (<v1>, <v2>, ...)`. -/
def wellFormedInSpan (col : List Char) (vs : List (List Char)) : List Char :=
  col ++ (' ' :: 'i' :: 'n' :: ' ' :: '(' :: (valueListLiteral vs ++ [')']))

/-! ## Helper lemmas: characters and character classes -/

theorem charToNat_inj {a b : Char} (h : a.toNat = b.toNat) : a = b := by
  have h2 := congrArg Char.ofNat h
  simpa using h2

theorem identStart_not_space {c : Char} (h : isIdentStart c = true) :
    jsIsSpace c = false := by
  simp only [isIdentStart, Bool.or_eq_true, Bool.and_eq_true,
    decide_eq_true_eq] at h
  simp only [jsIsSpace, Bool.or_eq_true, Bool.and_eq_true, decide_eq_true_eq,
    Bool.or_eq_false_iff, Bool.and_eq_false_iff, decide_eq_false_iff_not]
  omega

theorem wordChar_not_space {c : Char} (h : isWordChar c = true) :
    jsIsSpace c = false := by
  simp only [isWordChar, Bool.or_eq_true, Bool.and_eq_true,
    decide_eq_true_eq] at h
  simp only [jsIsSpace, Bool.or_eq_true, Bool.and_eq_true, decide_eq_true_eq,
    Bool.or_eq_false_iff, Bool.and_eq_false_iff, decide_eq_false_iff_not]
  omega

theorem identStart_wordChar {c : Char} (h : isIdentStart c = true) :
    isWordChar c = true := by
  simp only [isIdentStart, Bool.or_eq_true, Bool.and_eq_true,
    decide_eq_true_eq] at h
  simp only [isWordChar, Bool.or_eq_true, Bool.and_eq_true, decide_eq_true_eq]
  omega

theorem not_lineTerm_codes {c : Char} (h : jsIsLineTerm c = false) :
    c.toNat ≠ 10 ∧ c.toNat ≠ 13 := by
  simp only [jsIsLineTerm, Bool.or_eq_true, decide_eq_true_eq,
    Bool.or_eq_false_iff, decide_eq_false_iff_not] at h
  exact ⟨h.1.1.1, h.1.1.2⟩

/-! ## Helper lemmas: `firstOccFrom` -/

theorem firstOccFrom_start_le {hay needle : List Char} {start i : Nat}
    (h : firstOccFrom hay needle start = some i) : start ≤ i := by
  have hp := List.find?_some h
  simp only [Bool.and_eq_true, decide_eq_true_eq] at hp
  exact hp.1

theorem firstOccFrom_occurs {hay needle : List Char} {start i : Nat}
    (h : firstOccFrom hay needle start = some i) :
    needle <+: hay.drop i := by
  have hp := List.find?_some h
  simp only [Bool.and_eq_true, decide_eq_true_eq, occursAt,
    List.isPrefixOf_iff_prefix] at hp
  exact hp.2

theorem firstOccFrom_lt_length {hay needle : List Char} {start i : Nat}
    (h : firstOccFrom hay needle start = some i) (hne : needle ≠ []) :
    i < hay.length := by
  have hmem := List.mem_of_find?_eq_some h
  have hile : i ≤ hay.length := by
    have := List.mem_range.mp hmem
    omega
  have hlen := (firstOccFrom_occurs h).length_le
  rw [List.length_drop] at hlen
  have : 0 < needle.length := List.length_pos.mpr hne
  omega

/-! ## Scanner termination -/

/-- Fuel sufficiency for the scan loop: the loop's resume index strictly
increases past the `(` it inspected, so `length - searchIndex` is a
strictly decreasing measure and `length - searchIndex` steps of fuel
always reach one of the `break` cases. -/
theorem scanLoopF_isSome (sql : List Char) :
    ∀ fuel searchIndex, sql.length - searchIndex < fuel →
      (scanLoopF fuel sql searchIndex).isSome = true := by
  intro fuel
  induction fuel with
  | zero => intro si h; omega
  | succ f ih =>
    intro si h
    simp only [scanLoopF]
    split
    · simp
    next ci hc =>
      split
      · simp
      next pi hp =>
        have h1 : si ≤ ci := firstOccFrom_start_le hc
        have h2 : ci < sql.length := firstOccFrom_lt_length hc (by decide)
        have h3 : ci ≤ pi := firstOccFrom_start_le hp
        have h4 : pi < sql.length := firstOccFrom_lt_length hp (by decide)
        split
        next he => exact ih (pi + 1) (by omega)
        next content he =>
          have hr := ih (pi + content.length + 2) (by omega)
          split
          next hrec => rw [hrec] at hr; simp at hr
          next rest hrec => split <;> simp

/-! ## Helper lemmas: the lexicographic order used by `sort()` -/

theorem strLe_total : ∀ a b : List Char, strLe a b = true ∨ strLe b a = true := by
  intro a
  induction a with
  | nil => intro b; left; rfl
  | cons x xs ih =>
    intro b
    cases b with
    | nil => right; rfl
    | cons y ys =>
      by_cases h1 : x.toNat < y.toNat
      · left; simp [strLe, h1]
      · by_cases h2 : y.toNat < x.toNat
        · right; simp [strLe, h2]
        · rcases ih ys with h | h
          · left; simp [strLe, h1, h2, h]
          · right; simp [strLe, h1, h2, h]

theorem strLe_cons_iff {x y : Char} {xs ys : List Char} :
    strLe (x :: xs) (y :: ys) = true ↔
      x.toNat < y.toNat ∨ (x.toNat = y.toNat ∧ strLe xs ys = true) := by
  simp only [strLe]
  by_cases h1 : x.toNat < y.toNat <;> by_cases h2 : y.toNat < x.toNat
  · omega
  · simp [h1, h2]
  · have h3 : ¬ x.toNat = y.toNat := by omega
    simp [h1, h2, h3]
  · have h3 : x.toNat = y.toNat := by omega
    simp [h1, h2, h3]

theorem strLe_trans : ∀ a b c : List Char,
    strLe a b = true → strLe b c = true → strLe a c = true := by
  intro a
  induction a with
  | nil => intro b c _ _; rfl
  | cons x xs ih =>
    intro b c hab hbc
    cases b with
    | nil => simp [strLe] at hab
    | cons y ys =>
      cases c with
      | nil => simp [strLe] at hbc
      | cons z zs =>
        rw [strLe_cons_iff] at hab hbc ⊢
        rcases hab with h | ⟨he, hr⟩ <;> rcases hbc with h' | ⟨he', hr'⟩
        · left; omega
        · left; omega
        · left; omega
        · right; exact ⟨by omega, ih ys zs hr hr'⟩

instance : IsTotal (List Char) strLeP := ⟨fun a b => strLe_total a b⟩

instance : IsTrans (List Char) strLeP := ⟨fun a b c => strLe_trans a b c⟩

theorem sortStrings_perm (vs : List (List Char)) : List.Perm (sortStrings vs) vs :=
  List.perm_insertionSort strLeP vs

theorem sortStrings_sorted (vs : List (List Char)) : List.Sorted strLeP (sortStrings vs) :=
  List.sorted_insertionSort strLeP vs

/-- The per-row registry fold: looking up `k` afterwards returns the
sorted values of the LAST processed constraint whose key is `k`, and
falls back to the previous registry contents otherwise. -/
theorem constraintsFold_get (name : List Char) (cs : List EnumConstraint)
    (m : EnumCollection) (k : List Char) :
    (cs.foldl (fun m c => m.set (name ++ '.' :: c.column) (sortStrings c.values)) m).get k =
      (match cs.reverse.find? (fun c => decide (name ++ '.' :: c.column = k)) with
       | some c => some (sortStrings c.values)
       | none => m.get k) := by
  induction cs generalizing m with
  | nil => simp
  | cons c cs ih =>
    rw [List.foldl_cons, ih]
    rw [List.reverse_cons, List.find?_append]
    cases hf : cs.reverse.find? (fun c => decide (name ++ '.' :: c.column = k)) with
    | some c' => simp [Option.or]
    | none =>
      simp only [Option.or, List.find?]
      by_cases hk : name ++ '.' :: c.column = k
      · simp [hk, EnumCollection.set, EnumCollection.get]
      · simp [hk, EnumCollection.set, EnumCollection.get, Ne.symm hk]

/-! ## Helper lemmas: character provenance (outputs are substrings of the
normalized, lower-cased text) -/

theorem char_toNat_ofNat_of_lt {n : Nat} (h : n < 0xd800) : (Char.ofNat n).toNat = n := by
  have hv : n.isValidChar := Or.inl h
  rw [Char.ofNat, dif_pos hv]
  rfl

theorem asciiLower_not_upper (c : Char) :
    ¬(65 ≤ (asciiLower c).toNat ∧ (asciiLower c).toNat ≤ 90) := by
  rw [asciiLower]
  split
  next hb =>
    simp only [Bool.and_eq_true, decide_eq_true_eq] at hb
    rw [char_toNat_ofNat_of_lt (by omega)]
    omega
  next hb =>
    simp only [Bool.and_eq_true, decide_eq_true_eq, not_and, not_le] at hb
    omega

theorem lineTerm_is_space {c : Char} (h : jsIsLineTerm c = true) : jsIsSpace c = true := by
  simp only [jsIsLineTerm, Bool.or_eq_true, decide_eq_true_eq] at h
  simp only [jsIsSpace, Bool.or_eq_true, Bool.and_eq_true, decide_eq_true_eq]
  omega

theorem asciiLower_not_lineTerm {c : Char} (h : jsIsLineTerm c = false) :
    jsIsLineTerm (asciiLower c) = false := by
  rw [asciiLower]
  split
  next hb =>
    simp only [Bool.and_eq_true, decide_eq_true_eq] at hb
    simp only [jsIsLineTerm, Bool.or_eq_false_iff, decide_eq_false_iff_not]
    rw [char_toNat_ofNat_of_lt (by omega)]
    omega
  next hb => exact h

theorem mem_collapseWsAux : ∀ (prev : Bool) (l : List Char) (ch : Char),
    ch ∈ collapseWsAux prev l → ch = ' ' ∨ (ch ∈ l ∧ jsIsSpace ch = false) := by
  intro prev l
  induction l generalizing prev with
  | nil => intro ch h; simp [collapseWsAux] at h
  | cons c cs ih =>
    intro ch h
    rw [collapseWsAux] at h
    by_cases hc : jsIsSpace c = true
    · rw [if_pos hc] at h
      by_cases hp : prev = true
      · rw [if_pos hp] at h
        rcases ih _ ch h with h' | ⟨h1, h2⟩
        · exact Or.inl h'
        · exact Or.inr ⟨List.mem_cons_of_mem _ h1, h2⟩
      · rw [if_neg hp] at h
        rcases List.mem_cons.mp h with h' | h'
        · exact Or.inl h'
        · rcases ih _ ch h' with h'' | ⟨h1, h2⟩
          · exact Or.inl h''
          · exact Or.inr ⟨List.mem_cons_of_mem _ h1, h2⟩
    · rw [if_neg hc] at h
      rcases List.mem_cons.mp h with h' | h'
      · subst h'
        exact Or.inr ⟨List.mem_cons_self _ _, by simpa using hc⟩
      · rcases ih _ ch h' with h'' | ⟨h1, h2⟩
        · exact Or.inl h''
        · exact Or.inr ⟨List.mem_cons_of_mem _ h1, h2⟩

theorem normalizeSql_no_upper (sql : List Char) :
    ∀ ch ∈ normalizeSql sql, ¬(65 ≤ ch.toNat ∧ ch.toNat ≤ 90) := by
  intro ch h
  rw [normalizeSql] at h
  rcases List.mem_map.mp h with ⟨x, _, rfl⟩
  exact asciiLower_not_upper x

theorem normalizeSql_no_lineTerm (sql : List Char) :
    ∀ ch ∈ normalizeSql sql, jsIsLineTerm ch = false := by
  intro ch h
  rw [normalizeSql] at h
  rcases List.mem_map.mp h with ⟨x, hx, rfl⟩
  apply asciiLower_not_lineTerm
  rcases mem_collapseWsAux false sql x hx with h' | ⟨_, h2⟩
  · subst h'; decide
  · cases hlt : jsIsLineTerm x
    · rfl
    · rw [lineTerm_is_space hlt] at h2; cases h2

theorem extractParensAux_subset : ∀ (s : List Char) (depth : Int) (acc content : List Char),
    extractParensAux depth acc s = some content → ∀ ch ∈ content, ch ∈ acc ∨ ch ∈ s := by
  intro s
  induction s with
  | nil => intro depth acc content h; simp [extractParensAux] at h
  | cons c rest ih =>
    intro depth acc content h ch hch
    rw [extractParensAux] at h
    by_cases h1 : c = '('
    · rw [if_pos h1] at h
      rcases ih _ _ _ h ch hch with h' | h'
      · split at h'
        · rcases List.mem_append.mp h' with h'' | h''
          · exact Or.inl h''
          · simp at h''; subst h''; exact Or.inr (List.mem_cons_self _ _)
        · exact Or.inl h'
      · exact Or.inr (List.mem_cons_of_mem _ h')
    · rw [if_neg h1] at h
      by_cases h2 : c = ')'
      · rw [if_pos h2] at h
        by_cases h3 : depth - 1 = 0
        · rw [if_pos h3] at h
          injection h with h
          subst h
          exact Or.inl hch
        · rw [if_neg h3] at h
          rcases ih _ _ _ h ch hch with h' | h'
          · rcases List.mem_append.mp h' with h'' | h''
            · exact Or.inl h''
            · simp at h''; subst h''; exact Or.inr (List.mem_cons_self _ _)
          · exact Or.inr (List.mem_cons_of_mem _ h')
      · rw [if_neg h2] at h
        by_cases h3 : depth > 0
        · rw [if_pos h3] at h
          rcases ih _ _ _ h ch hch with h' | h'
          · rcases List.mem_append.mp h' with h'' | h''
            · exact Or.inl h''
            · simp at h''; subst h''; exact Or.inr (List.mem_cons_self _ _)
          · exact Or.inr (List.mem_cons_of_mem _ h')
        · rw [if_neg h3] at h
          rcases ih _ _ _ h ch hch with h' | h'
          · exact Or.inl h'
          · exact Or.inr (List.mem_cons_of_mem _ h')

theorem extractParenthesesContent_subset {sql : List Char} {startIndex : Nat}
    {content : List Char} (h : extractParenthesesContent sql startIndex = some content) :
    ∀ ch ∈ content, ch ∈ sql := by
  intro ch hch
  rcases extractParensAux_subset _ _ _ _ h ch hch with h' | h'
  · simp at h'
  · exact List.mem_of_mem_drop h'

theorem tryCapture_subset : ∀ (l cap : List Char), tryCapture l = some cap →
    ∀ ch ∈ cap, ch ∈ l := by
  intro l
  induction l with
  | nil => intro cap h; simp [tryCapture] at h
  | cons c rest ih =>
    intro cap h ch hch
    rw [tryCapture] at h
    split at h
    · cases h
    · split at h
      · injection h with h; subst h
        simp at hch; subst hch; exact List.mem_cons_self _ _
      · cases hc : tryCapture rest with
        | none => rw [hc] at h; cases h
        | some cap' =>
          rw [hc] at h
          injection h with h; subst h
          rcases List.mem_cons.mp hch with h' | h'
          · subst h'; exact List.mem_cons_self _ _
          · exact List.mem_cons_of_mem _ (ih _ hc ch h')

theorem matchWsCapture_subset : ∀ (l cap : List Char), matchWsCapture l = some cap →
    ∀ ch ∈ cap, ch ∈ l := by
  intro l
  induction l with
  | nil => intro cap h; simp [matchWsCapture] at h
  | cons c rest ih =>
    intro cap h ch hch
    rw [matchWsCapture] at h
    split at h
    · cases hm : matchWsCapture rest with
      | none => rw [hm] at h; exact tryCapture_subset _ _ h ch hch
      | some cap' =>
        rw [hm] at h; injection h with h; subst h
        exact List.mem_cons_of_mem _ (ih _ hm ch hch)
    · exact tryCapture_subset _ _ h ch hch

theorem jsTrim_subset {l : List Char} : ∀ ch ∈ jsTrim l, ch ∈ l := by
  intro ch h
  rw [jsTrim] at h
  rw [List.mem_reverse] at h
  have h1 := List.dropWhile_subset _ h
  rw [List.mem_reverse] at h1
  exact List.dropWhile_subset _ h1

theorem pvAux_subset : ∀ (st : Option Char) (cur s : List Char) (v : List Char),
    v ∈ pvAux st cur s → ∀ ch ∈ v, ch ∈ cur ∨ ch ∈ s := by
  intro st cur s
  induction st, cur, s using pvAux.induct with
  | case1 st cur hx =>
    intro v hv ch hch
    rw [pvAux, hx] at hv
    simp at hv
  | case2 st cur hx =>
    intro v hv ch hch
    rw [pvAux] at hv
    cases hjt : jsTrim cur with
    | nil => exact absurd hjt hx
    | cons t ts =>
      rw [hjt] at hv
      simp at hv
      subst hv
      exact Or.inl (jsTrim_subset ch (by rw [hjt]; exact hch))
  | case3 cur c rest hguard ih =>
    intro v hv ch hch
    rw [pvAux, if_pos hguard] at hv
    exact (ih v hv ch hch).imp id (List.mem_cons_of_mem _)
  | case4 cur rest hx hguard ih =>
    intro v hv ch hch
    rw [pvAux, if_neg hguard, if_pos rfl, hx] at hv
    rcases ih v hv ch hch with h | h
    · simp at h
    · exact Or.inr (List.mem_cons_of_mem _ h)
  | case5 cur rest hguard hx ih =>
    intro v hv ch hch
    rw [pvAux, if_neg hguard, if_pos rfl] at hv
    cases hjt : jsTrim cur with
    | nil => exact absurd hjt hx
    | cons t ts =>
      rw [hjt] at hv
      rcases List.mem_cons.mp hv with h | h
      · subst h
        exact Or.inl (jsTrim_subset ch (by rw [hjt]; exact hch))
      · rcases ih v h ch hch with h' | h'
        · simp at h'
        · exact Or.inr (List.mem_cons_of_mem _ h')
  | case6 cur c rest hguard hc ih =>
    intro v hv ch hch
    rw [pvAux, if_neg hguard, if_neg hc] at hv
    rcases ih v hv ch hch with h | h
    · rcases List.mem_append.mp h with h' | h'
      · exact Or.inl h'
      · simp at h'
        subst h'
        exact Or.inr (List.mem_cons_self _ _)
    · exact Or.inr (List.mem_cons_of_mem _ h)
  | case7 cur c ih =>
    intro v hv ch hch
    rw [pvAux, if_pos rfl] at hv
    exact (ih v hv ch hch).imp id (fun h => by simp at h)
  | case8 q cur c hc ih =>
    intro v hv ch hch
    rw [pvAux, if_neg hc] at hv
    rcases ih v hv ch hch with h | h
    · rcases List.mem_append.mp h with h' | h'
      · exact Or.inl h'
      · simp at h'
        subst h'
        exact Or.inr (List.mem_cons_self _ _)
    · simp at h
  | case9 cur c2 rest2 ih =>
    intro v hv ch hch
    rw [pvAux, if_pos rfl, if_pos rfl] at hv
    rcases ih v hv ch hch with h | h
    · rcases List.mem_append.mp h with h' | h'
      · exact Or.inl h'
      · simp at h'
        subst h'
        exact Or.inr (List.mem_cons_self _ _)
    · exact Or.inr (List.mem_cons_of_mem _ (List.mem_cons_of_mem _ h))
  | case10 cur c c2 rest2 hc ih =>
    intro v hv ch hch
    rw [pvAux, if_pos rfl, if_neg hc] at hv
    exact (ih v hv ch hch).imp id (List.mem_cons_of_mem _)
  | case11 q cur c c2 rest2 hc ih =>
    intro v hv ch hch
    rw [pvAux, if_neg hc] at hv
    rcases ih v hv ch hch with h | h
    · rcases List.mem_append.mp h with h' | h'
      · exact Or.inl h'
      · simp at h'
        subst h'
        exact Or.inr (List.mem_cons_self _ _)
    · exact Or.inr (List.mem_cons_of_mem _ h)

theorem matchAfterLeadWs_subset {s1 ident vals : List Char}
    (h : matchAfterLeadWs s1 = some (ident, vals)) :
    (∀ ch ∈ ident, ch ∈ s1) ∧ (∀ ch ∈ vals, ch ∈ s1) := by
  rw [matchAfterLeadWs.eq_def] at h
  split at h
  · cases h
  next c r1 =>
    split at h
    case isFalse => cases h
    case isTrue hident =>
    split at h
    case h_2 => cases h
    next c2 r2 hs2 =>
    split at h
    case isFalse => cases h
    case isTrue hws =>
    split at h
    case h_2 => cases h
    next ci1 ci2 s4 hs3 =>
    split at h
    case isFalse => cases h
    case isTrue hin =>
    split at h
    case h_2 => cases h
    next cp r5 hs5 =>
    split at h
    case isFalse => cases h
    case isTrue hcp =>
    split at h
    case h_2 => cases h
    next cr revBody hrev =>
    split at h
    case isFalse => cases h
    case isTrue hcr =>
    cases hcap : matchWsCapture revBody.reverse with
    | none => rw [hcap] at h; cases h
    | some cap =>
      rw [hcap] at h
      simp only [Option.map_some, Option.some.injEq, Prod.mk.injEq] at h
      obtain ⟨hid, hval⟩ := h
      constructor
      · intro ch hch
        rcases List.mem_cons.mp hch with h1 | h1
        · subst h1; exact List.mem_cons_self _ _
        · exact List.mem_cons_of_mem _ ((List.takeWhile_prefix _).subset h1)
      · intro ch hch
        have m1 : ch ∈ revBody.reverse := matchWsCapture_subset _ _ hcap ch hch
        have m2 : ch ∈ revBody := List.mem_reverse.mp m1
        have m3 : ch ∈ r5.reverse.dropWhile jsIsSpace := by
          rw [hrev]; exact List.mem_cons_of_mem _ m2
        have m4 : ch ∈ r5 := List.mem_reverse.mp (List.dropWhile_subset _ m3)
        have m5 : ch ∈ s4.dropWhile jsIsSpace := by
          rw [hs5]; exact List.mem_cons_of_mem _ m4
        have m6 : ch ∈ r2.dropWhile jsIsSpace := by
          rw [hs3]
          exact List.mem_cons_of_mem _ (List.mem_cons_of_mem _ (List.dropWhile_subset _ m5))
        have m7 : ch ∈ r1.dropWhile isWordChar := by
          rw [hs2]; exact List.mem_cons_of_mem _ (List.dropWhile_subset _ m6)
        exact List.mem_cons_of_mem _ (List.dropWhile_subset _ m7)

theorem parseInConstraint_subset {content : List Char} {c : EnumConstraint}
    (h : parseInConstraint content = some c) :
    (∀ ch ∈ c.column, ch ∈ content) ∧ (∀ v ∈ c.values, ∀ ch ∈ v, ch ∈ content) := by
  rw [parseInConstraint] at h
  cases hm : matchInPattern content with
  | none => rw [hm] at h; cases h
  | some p =>
    obtain ⟨columnName, valuesString⟩ := p
    rw [hm] at h
    simp only at h
    split at h
    case isFalse => cases h
    case isTrue hlen =>
    injection h with h
    subst h
    rw [matchInPattern] at hm
    have hsub := matchAfterLeadWs_subset hm
    constructor
    · intro ch hch
      exact List.dropWhile_subset _ (hsub.1 ch hch)
    · intro v hv ch hch
      rcases pvAux_subset none [] valuesString v hv ch hch with h1 | h1
      · simp at h1
      · exact List.dropWhile_subset _ (hsub.2 ch h1)

theorem scanLoopF_mem : ∀ (fuel : Nat) (sql : List Char) (si : Nat) (l : List EnumConstraint),
    scanLoopF fuel sql si = some l → ∀ c ∈ l,
      ∃ pi content, extractParenthesesContent sql pi = some content ∧
        parseInConstraint content = some c := by
  intro fuel
  induction fuel with
  | zero => intro sql si l h; cases h
  | succ f ih =>
    intro sql si l h c hc
    rw [scanLoopF] at h
    split at h
    · injection h with h; subst h; simp at hc
    next ci hci =>
      split at h
      · injection h with h; subst h; simp at hc
      next pi hpi =>
        split at h
        next he => exact ih sql (pi + 1) l h c hc
        next content he =>
          split at h
          case h_1 => cases h
          next rest hrest =>
            split at h
            next c' hpc =>
              injection h with h
              subst h
              rcases List.mem_cons.mp hc with h1 | h1
              · subst h1
                exact ⟨pi, content, he, hpc⟩
              · exact ih sql _ rest hrest c h1
            next hpc =>
              injection h with h
              subst h
              exact ih sql _ rest hrest c hc

theorem parseEnumConstraints_provenance {sql : List Char} {c : EnumConstraint}
    (hc : c ∈ parseEnumConstraints sql) :
    ∃ content, (∀ ch ∈ content, ch ∈ normalizeSql sql) ∧
      parseInConstraint content = some c := by
  rw [parseEnumConstraints] at hc
  cases hs : scanLoopF ((normalizeSql sql).length + 1) (normalizeSql sql) 0 with
  | none => rw [hs] at hc; simp at hc
  | some l =>
    rw [hs] at hc
    simp only [Option.getD_some] at hc
    obtain ⟨pi, content, he, hpc⟩ := scanLoopF_mem _ _ _ _ hs c hc
    exact ⟨content, extractParenthesesContent_subset he, hpc⟩

theorem parseInConstraint_values_pos {content : List Char} {c : EnumConstraint}
    (h : parseInConstraint content = some c) : c.values ≠ [] := by
  rw [parseInConstraint] at h
  cases hm : matchInPattern content with
  | none => rw [hm] at h; cases h
  | some p =>
    obtain ⟨columnName, valuesString⟩ := p
    rw [hm] at h
    simp only at h
    split at h
    case isFalse => cases h
    case isTrue hlen =>
      injection h with h
      subst h
      simp only
      intro hnil
      rw [hnil] at hlen
      simp at hlen

theorem parseEnumConstraints_values_ne_nil {sql : List Char} {c : EnumConstraint}
    (hc : c ∈ parseEnumConstraints sql) : c.values ≠ [] := by
  obtain ⟨content, _, hpc⟩ := parseEnumConstraints_provenance hc
  exact parseInConstraint_values_pos hpc

theorem sortStrings_ne_nil {vs : List (List Char)} (h : vs ≠ []) : sortStrings vs ≠ [] := by
  intro hnil
  have hp := sortStrings_perm vs
  rw [hnil] at hp
  exact h (List.Perm.nil_eq hp).symm

theorem registry_get_ne_nil : ∀ (rows : List SqliteMasterRow) (k : List Char)
    (vs : List (List Char)),
    (introspectCheckConstraintEnums rows).get k = some vs → vs ≠ [] := by
  have main : ∀ (rows : List SqliteMasterRow) (m : EnumCollection),
      (∀ k vs, m.get k = some vs → vs ≠ []) →
      ∀ k vs, (rows.foldl
        (fun enums row =>
          match row.sql with
          | none => enums
          | some sqlText =>
            if sqlText = [] then enums
            else
              (parseEnumConstraints sqlText).foldl
                (fun m constraint =>
                  m.set (row.name ++ '.' :: constraint.column)
                    (sortStrings constraint.values))
                enums) m).get k = some vs → vs ≠ [] := by
    intro rows
    induction rows with
    | nil => intro m hm k vs h; exact hm k vs h
    | cons row rows ih =>
      intro m hm k vs h
      rw [List.foldl_cons] at h
      refine ih _ ?_ k vs h
      intro k' vs' h'
      cases hsql : row.sql with
      | none => simp only [hsql] at h'; exact hm k' vs' h'
      | some sqlText =>
        simp only [hsql] at h'
        by_cases hempty : sqlText = []
        · rw [if_pos hempty] at h'; exact hm k' vs' h'
        · rw [if_neg hempty] at h'
          rw [constraintsFold_get] at h'
          split at h'
          next c hf =>
            injection h' with h'
            subst h'
            have hmem : c ∈ (parseEnumConstraints sqlText).reverse :=
              List.mem_of_find?_eq_some hf
            exact sortStrings_ne_nil
              (parseEnumConstraints_values_ne_nil (List.mem_reverse.mp hmem))
          next hf => exact hm k' vs' h'
  intro rows k vs h
  refine main rows EnumCollection.empty ?_ k vs h
  intro k' vs' h'
  cases h'

/-! ## Helper lemmas: tokenizer appends and trimming -/

theorem space_ne_quote_comma {c : Char} (h : jsIsSpace c = true) :
    c ≠ '"' ∧ c ≠ '\'' ∧ c ≠ ',' := by
  simp only [jsIsSpace, Bool.or_eq_true, Bool.and_eq_true, decide_eq_true_eq] at h
  refine ⟨fun he => ?_, fun he => ?_, fun he => ?_⟩
  · have : c.toNat = 34 := by rw [he]; rfl
    omega
  · have : c.toNat = 39 := by rw [he]; rfl
    omega
  · have : c.toNat = 44 := by rw [he]; rfl
    omega

theorem pvAux_quoted_step {q c : Char} {cur rest : List Char} (h : c ≠ q) :
    pvAux (some q) cur (c :: rest) = pvAux (some q) (cur ++ [c]) rest := by
  cases rest <;> simp [pvAux, h]

theorem pvAux_unquoted_step {c : Char} {cur rest : List Char}
    (h1 : c ≠ '"') (h2 : c ≠ '\'') (h3 : c ≠ ',') :
    pvAux none cur (c :: rest) = pvAux none (cur ++ [c]) rest := by
  simp [pvAux, h1, h2, h3]

theorem pvAux_quoted_append : ∀ (l : List Char) (q : Char) (cur s : List Char),
    (∀ ch ∈ l, ch ≠ q) →
    pvAux (some q) cur (l ++ s) = pvAux (some q) (cur ++ l) s := by
  intro l
  induction l with
  | nil => intro q cur s _; simp
  | cons c l' ih =>
    intro q cur s hl
    rw [List.cons_append, pvAux_quoted_step (hl c (List.mem_cons_self _ _))]
    rw [ih q (cur ++ [c]) s (fun ch hch => hl ch (List.mem_cons_of_mem _ hch))]
    simp

theorem pvAux_unquoted_append : ∀ (l : List Char) (cur s : List Char),
    (∀ ch ∈ l, ch ≠ '"' ∧ ch ≠ '\'' ∧ ch ≠ ',') →
    pvAux none cur (l ++ s) = pvAux none (cur ++ l) s := by
  intro l
  induction l with
  | nil => intro cur s _; simp
  | cons c l' ih =>
    intro cur s hl
    obtain ⟨h1, h2, h3⟩ := hl c (List.mem_cons_self _ _)
    rw [List.cons_append, pvAux_unquoted_step h1 h2 h3]
    rw [ih (cur ++ [c]) s (fun ch hch => hl ch (List.mem_cons_of_mem _ hch))]
    simp

theorem dropWhile_ws_append {w x : List Char} (hw : w.all jsIsSpace = true) :
    (w ++ x).dropWhile jsIsSpace = x.dropWhile jsIsSpace := by
  rw [List.dropWhile_append]
  have : w.dropWhile jsIsSpace = [] := by
    rw [List.dropWhile_eq_nil_iff]
    intro ch hch
    exact (List.all_eq_true.mp hw) ch hch
  simp [this]

theorem jsTrim_ws_append {w x : List Char} (hw : w.all jsIsSpace = true) :
    jsTrim (w ++ x) = jsTrim x := by
  rw [jsTrim, jsTrim, dropWhile_ws_append hw]

theorem jsTrim_append_ws {w x : List Char} (hw : w.all jsIsSpace = true) :
    jsTrim (x ++ w) = jsTrim x := by
  rw [jsTrim, jsTrim]
  rw [List.dropWhile_append]
  by_cases hx : (x.dropWhile jsIsSpace).isEmpty = true
  · have hwnil : w.dropWhile jsIsSpace = [] := by
      rw [List.dropWhile_eq_nil_iff]
      intro ch hch
      exact (List.all_eq_true.mp hw) ch hch
    simp only [hx, if_pos, hwnil]
    rw [List.isEmpty_iff] at hx
    rw [hx]
  · simp only [hx, if_neg, Bool.false_eq_true, not_false_iff, if_false]
    rw [List.reverse_append]
    have hwr : w.reverse.all jsIsSpace = true := by
      rw [List.all_eq_true]
      intro ch hch
      exact (List.all_eq_true.mp hw) ch (List.mem_reverse.mp hch)
    rw [dropWhile_ws_append hwr]

theorem jsTrim_sandwich {w1 w2 v : List Char} (h1 : w1.all jsIsSpace = true)
    (h2 : w2.all jsIsSpace = true) (hv : jsTrim v = v) :
    jsTrim (w1 ++ v ++ w2) = v := by
  rw [List.append_assoc, jsTrim_ws_append h1, jsTrim_append_ws h2, hv]

/-! ## Helper lemmas: well-formed membership spans -/

theorem pvAux_quote_exit {q c2 : Char} {cur rest2 : List Char} (h : c2 ≠ q) :
    pvAux (some q) cur (q :: c2 :: rest2) = pvAux none cur (c2 :: rest2) := by
  conv_lhs => rw [pvAux]
  rw [if_pos rfl, if_neg h]

theorem tryCapture_full : ∀ (pre : List Char) (e : Char) (l : List Char),
    l = pre ++ [e] → jsIsSpace e = false →
    (∀ ch ∈ l, jsIsLineTerm ch = false) → tryCapture l = some l := by
  intro pre
  induction pre with
  | nil =>
    intro e l hl hwse hlt
    subst hl
    simp only [List.nil_append] at *
    have h1 : jsIsLineTerm e = false := hlt e (by simp)
    simp [tryCapture, h1]
  | cons c pre' ih =>
    intro e l hl hwse hlt
    subst hl
    rw [List.cons_append, tryCapture]
    rw [if_neg (by simp [hlt c (by simp)])]
    have hrest : ¬ (pre' ++ [e]).all jsIsSpace = true := by
      intro hall
      rw [List.all_eq_true] at hall
      rw [hall e (by simp)] at hwse
      cases hwse
    rw [if_neg hrest]
    rw [ih e (pre' ++ [e]) rfl hwse (fun ch hch => hlt ch (List.mem_cons_of_mem _ hch))]
    rfl

theorem valueListLiteral_last : ∀ (vs : List (List Char)), vs ≠ [] →
    ∃ pre, valueListLiteral vs = pre ++ ['\''] := by
  intro vs
  induction vs with
  | nil => intro h; exact absurd rfl h
  | cons v vs' ih =>
    intro _
    cases vs' with
    | nil =>
      refine ⟨'\'' :: v, ?_⟩
      rw [valueListLiteral]
      simp
    | cons v' vs'' =>
      obtain ⟨pre, hpre⟩ := ih (by simp)
      refine ⟨('\'' :: (v ++ ['\''])) ++ (',' :: ' ' :: pre), ?_⟩
      rw [valueListLiteral]
      · rw [hpre]
        simp
      · simp

theorem valueListLiteral_chars : ∀ (vs : List (List Char)),
    (∀ v ∈ vs, ∀ ch ∈ v, jsIsLineTerm ch = false) →
    ∀ ch ∈ valueListLiteral vs, jsIsLineTerm ch = false := by
  intro vs
  induction vs with
  | nil => intro _ ch hch; simp [valueListLiteral] at hch
  | cons v vs' ih =>
    intro hv ch hch
    cases vs' with
    | nil =>
      rw [valueListLiteral] at hch
      rcases List.mem_cons.mp hch with h | h
      · subst h; decide
      · rcases List.mem_append.mp h with h' | h'
        · exact hv v (by simp) ch h'
        · simp at h'; subst h'; decide
    | cons v' vs'' =>
      rw [valueListLiteral] at hch
      case x_1 => simp
      rcases List.mem_append.mp hch with h | h
      · rcases List.mem_cons.mp h with h' | h'
        · subst h'; decide
        · rcases List.mem_append.mp h' with h'' | h''
          · exact hv v (by simp) ch h''
          · simp at h''; subst h''; decide
      · rcases List.mem_cons.mp h with h' | h'
        · subst h'; decide
        · rcases List.mem_cons.mp h' with h'' | h''
          · subst h''; decide
          · exact ih (fun u hu => hv u (List.mem_cons_of_mem _ hu)) ch h''

theorem parseValueList_literal_aux : ∀ (vs : List (List Char)) (cur : List Char),
    vs ≠ [] → cur.all jsIsSpace = true →
    (∀ v ∈ vs, v ≠ [] ∧ jsTrim v = v ∧ ∀ ch ∈ v, ch ≠ '\'') →
    pvAux none cur (valueListLiteral vs) = vs := by
  intro vs
  induction vs with
  | nil => intro cur h; exact absurd rfl h
  | cons v vs' ih =>
    intro cur _ hcur hv
    obtain ⟨hvne, hvtrim, hvch⟩ := hv v (by simp)
    cases vs' with
    | nil =>
      rw [valueListLiteral]
      rw [show pvAux none cur ('\'' :: (v ++ ['\''])) =
            pvAux (some '\'') cur (v ++ ['\'']) by rw [pvAux]; rw [if_pos (by decide)]]
      rw [pvAux_quoted_append v '\'' cur ['\''] hvch]
      rw [pvAux]
      rw [if_pos rfl]
      rw [pvAux]
      rw [jsTrim_ws_append hcur, hvtrim]
      cases hv' : v with
      | nil => exact absurd hv' hvne
      | cons a as => simp
    | cons v' vs'' =>
      rw [valueListLiteral]
      case x_1 => simp
      rw [List.cons_append]
      rw [show pvAux none cur
            ('\'' :: ((v ++ ['\'']) ++ (',' :: ' ' :: valueListLiteral (v' :: vs'')))) =
            pvAux (some '\'') cur
              ((v ++ ['\'']) ++ (',' :: ' ' :: valueListLiteral (v' :: vs''))) by
          rw [pvAux]; rw [if_pos (by decide)]]
      rw [List.append_assoc, List.singleton_append]
      rw [pvAux_quoted_append v '\'' cur _ hvch]
      rw [pvAux_quote_exit (by decide)]
      rw [pvAux]
      rw [if_neg (by decide), if_pos rfl]
      rw [jsTrim_ws_append hcur, hvtrim]
      have hrest : pvAux none [] (' ' :: valueListLiteral (v' :: vs'')) = v' :: vs'' := by
        rw [show pvAux none [] (' ' :: valueListLiteral (v' :: vs'')) =
              pvAux none [' '] (valueListLiteral (v' :: vs'')) by
            rw [pvAux]; rw [if_neg (by decide), if_neg (by decide)]; rfl]
        exact ih [' '] (by simp) (by decide) (fun u hu => hv u (List.mem_cons_of_mem _ hu))
      cases hv' : v with
      | nil => exact absurd hv' hvne
      | cons a as => simp [hrest]

theorem valueListLiteral_head : ∀ (vs : List (List Char)), vs ≠ [] →
    ∃ tl, valueListLiteral vs = '\'' :: tl := by
  intro vs hvs
  cases vs with
  | nil => exact absurd rfl hvs
  | cons v vs' =>
    cases vs' with
    | nil => exact ⟨v ++ ['\''], by rw [valueListLiteral]⟩
    | cons v' vs'' =>
      refine ⟨(v ++ ['\'']) ++ (',' :: ' ' :: valueListLiteral (v' :: vs'')), ?_⟩
      rw [valueListLiteral]
      · rw [List.cons_append]
      · simp

theorem matchInPattern_wellFormed : ∀ (c0 : Char) (cs : List Char) (vs : List (List Char)),
    isIdentStart c0 = true → cs.all isWordChar = true → vs ≠ [] →
    (∀ v ∈ vs, ∀ ch ∈ v, jsIsLineTerm ch = false) →
    matchInPattern (wellFormedInSpan (c0 :: cs) vs) =
      some (c0 :: cs, valueListLiteral vs) := by
  intro c0 cs vs hc0 hcs hvs hlt
  rw [matchInPattern, wellFormedInSpan, List.cons_append]
  rw [List.dropWhile_cons_of_neg (by simp [identStart_not_space hc0])]
  rw [matchAfterLeadWs.eq_def]
  simp only
  rw [if_pos hc0]
  rw [List.takeWhile_append_of_pos (fun a ha => (List.all_eq_true.mp hcs) a ha)]
  rw [List.takeWhile_cons_of_neg (by decide)]
  rw [List.append_nil]
  rw [List.dropWhile_append_of_pos (fun a ha => (List.all_eq_true.mp hcs) a ha)]
  rw [List.dropWhile_cons_of_neg (by decide)]
  simp only
  rw [if_pos (by decide : jsIsSpace ' ' = true)]
  rw [List.dropWhile_cons_of_neg (by decide)]
  simp only
  rw [if_pos (⟨trivial, trivial⟩ : True ∧ True)]
  rw [List.dropWhile_cons_of_pos (by decide : jsIsSpace ' ' = true)]
  rw [List.dropWhile_cons_of_neg (by decide)]
  simp only
  rw [if_pos (trivial : True)]
  rw [List.reverse_append, List.reverse_singleton, List.singleton_append]
  rw [List.dropWhile_cons_of_neg (by decide)]
  simp only
  rw [if_pos (trivial : True)]
  rw [List.reverse_reverse]
  obtain ⟨pre, hpre⟩ := valueListLiteral_last vs hvs
  obtain ⟨tl, htl⟩ := valueListLiteral_head vs hvs
  have htc : tryCapture (valueListLiteral vs) = some (valueListLiteral vs) :=
    tryCapture_full pre '\'' _ hpre (by decide) (valueListLiteral_chars vs hlt)
  rw [htl, matchWsCapture]
  rw [if_neg (by decide)]
  rw [← htl, htc]
  rfl

/-! ## Claim theorems -/

/-- **C3**: scanning terminates on every input (the loop with
`length + 1` fuel always reaches a `break`); when a CHECK occurrence is
followed by an opening parenthesis with no matching closing parenthesis,
that occurrence yields no span, scanning resumes just past the unmatched
opening parenthesis — strictly beyond the previous search position — and
the spec's unmatched-parenthesis example produces no entry. -/
theorem scanner_termination_unmatched_paren :
    (∀ sql : List Char, (scanLoopF (sql.length + 1) sql 0).isSome = true) ∧
    (∀ (sql : List Char) (si ci pi f : Nat),
        firstOccFrom sql checkNeedle si = some ci →
        firstOccFrom sql parenNeedle ci = some pi →
        extractParenthesesContent sql pi = none →
        scanLoopF (f + 1) sql si = scanLoopF f sql (pi + 1) ∧ si < pi + 1) ∧
    parseEnumConstraints ("CHECK (status IN ('a','b'".toList) = [] := by
  refine ⟨fun sql => scanLoopF_isSome sql _ 0 (by omega), ?_, by decide⟩
  intro sql si ci pi f hc hp he
  refine ⟨?_, ?_⟩
  · simp only [scanLoopF, hc, hp, he]
  · have h1 := firstOccFrom_start_le hc
    have h2 := firstOccFrom_start_le hp
    omega

/-- Witness for **C3** at the concrete input `"check (a"`: the CHECK at
index 0 has its `(` at index 6, extraction fails, and the loop resumes at
index 7. -/
theorem scanner_termination_unmatched_paren_witness :
    firstOccFrom ("check (a".toList) checkNeedle 0 = some 0 ∧
    firstOccFrom ("check (a".toList) parenNeedle 0 = some 6 ∧
    extractParenthesesContent ("check (a".toList) 6 = none ∧
    scanLoopF 5 ("check (a".toList) 0 = scanLoopF 4 ("check (a".toList) 7 ∧ 0 < 7 :=
  ⟨by decide, by decide, by decide,
   scanner_termination_unmatched_paren.2.1 ("check (a".toList) 0 0 6 4
     (by decide) (by decide) (by decide)⟩

/-- **C10**: the scanner triggers on any occurrence of the substring
`check`, not only on standalone CHECK tokens: an occurrence embedded in
the identifier `checked`, and one inside the quoted string literal
`'no check here'`, each start a balanced-span extraction at the next `(`
and yield a constraint. -/
theorem scanner_triggers_on_embedded_check_substring :
    parseEnumConstraints ("checked (status in ('x','y'))".toList) =
      [⟨"status".toList, ["x".toList, "y".toList]⟩] ∧
    parseEnumConstraints ("a text default 'no check here', b (c in ('1','2'))".toList) =
      [⟨"c".toList, ["1".toList, "2".toList]⟩] := by decide

/-- **C4**: inside a quoted region the tokenizer treats a doubled active
quote as one literal quote character (consuming both characters), a
single active quote as the end of the quoted region (also at end of
input), and any other character — commas and whitespace included — as
literal content appended to the buffer; tokenizing `'it''s', "ok"`
yields `["it's", "ok"]`. -/
theorem tokenizer_quoted_state_rules :
    (∀ (q : Char) (cur rest : List Char),
        pvAux (some q) cur (q :: q :: rest) = pvAux (some q) (cur ++ [q]) rest) ∧
    (∀ (q c : Char) (cur rest : List Char), c ≠ q →
        pvAux (some q) cur (q :: c :: rest) = pvAux none cur (c :: rest)) ∧
    (∀ (q : Char) (cur : List Char), pvAux (some q) cur [q] = pvAux none cur []) ∧
    (∀ (q c : Char) (cur rest : List Char), c ≠ q →
        pvAux (some q) cur (c :: rest) = pvAux (some q) (cur ++ [c]) rest) ∧
    parseValueList ("'it''s', \"ok\"".toList) = ["it's".toList, "ok".toList] := by
  refine ⟨?_, ?_, ?_, ?_, by decide⟩
  · intro q cur rest; simp [pvAux]
  · intro q c cur rest h; simp [pvAux, h]
  · intro q cur; simp [pvAux]
  · intro q c cur rest h; cases rest <;> simp [pvAux, h]

/-- Witness for **C4**: the non-doubled-quote rule applied at the
concrete state `q = '\''`, next characters `'a' :: []`. -/
theorem tokenizer_quoted_state_rules_witness :
    pvAux (some '\'') [] ('\'' :: 'a' :: []) = pvAux none [] ['a'] ∧
    parseValueList ("'it''s', \"ok\"".toList) = ["it's".toList, "ok".toList] :=
  ⟨tokenizer_quoted_state_rules.2.1 '\'' 'a' [] [] (by decide),
   tokenizer_quoted_state_rules.2.2.2.2⟩

/-- **C5**: for every constraint produced by a scan pass, the registry
stores its values sorted lexicographically ascending (a sorted
permutation of the parsed values) under key `tableName ++ "." ++ column`,
overwriting any prior entry for that exact key (last-match-wins: the
lookup returns the sorted values of the LAST matching constraint); input
values `['b','a','c']` are stored as `['a','b','c']`. -/
theorem registry_sorted_last_match_wins :
    (∀ vs : List (List Char),
        List.Perm (sortStrings vs) vs ∧ List.Sorted strLeP (sortStrings vs)) ∧
    (∀ (name sqlText k : List Char), sqlText ≠ [] →
        (introspectCheckConstraintEnums [⟨name, some sqlText⟩]).get k =
          (match (parseEnumConstraints sqlText).reverse.find?
              (fun c => decide (name ++ '.' :: c.column = k)) with
           | some c => some (sortStrings c.values)
           | none => none)) ∧
    sortStrings ["b".toList, "a".toList, "c".toList] =
      ["a".toList, "b".toList, "c".toList] := by
  refine ⟨fun vs => ⟨sortStrings_perm vs, sortStrings_sorted vs⟩, ?_, by decide⟩
  intro name sqlText k hne
  simp only [introspectCheckConstraintEnums, List.foldl_cons, List.foldl_nil, hne,
    if_false]
  rw [constraintsFold_get]
  rfl

/-- Witness for **C5**: a DDL text with two constraints on the same
column `s`; the registry keeps the sorted values of the last one. -/
theorem registry_sorted_last_match_wins_witness :
    ("x".toList ≠ ([] : List Char)) ∧
    (introspectCheckConstraintEnums
        [⟨"t".toList, some ("check (s in ('b','a')) check (s in ('c'))".toList)⟩]).get
      ("t.s".toList) = some ["c".toList] := by
  refine ⟨by decide, ?_⟩
  have h := registry_sorted_last_match_wins.2.1 "t".toList
    ("check (s in ('b','a')) check (s in ('c'))".toList) ("t.s".toList) (by decide)
  rw [h]
  decide

/-- **C1** counterexample: the pipeline lower-cases the whole DDL before
parsing, so the returned column name and values do NOT retain the
original casing of the DDL text `CHECK (Status IN ('A','B'))`, and the
registry key uses the lower-cased column name. -/
theorem casing_not_preserved_counterexample :
    parseEnumConstraints ("CHECK (Status IN ('A','B'))".toList) =
      [⟨"status".toList, ["a".toList, "b".toList]⟩] ∧
    ¬ ("status".toList = "Status".toList) ∧ ¬ ("a".toList = "A".toList) ∧
    (introspectCheckConstraintEnums
        [⟨"T".toList, some ("CHECK (Status IN ('A','B'))".toList)⟩]).get
        ("T.Status".toList) = none ∧
    (introspectCheckConstraintEnums
        [⟨"T".toList, some ("CHECK (Status IN ('A','B'))".toList)⟩]).get
        ("T.status".toList) = some ["a".toList, "b".toList] := by decide

/-- **C1** (amended): the column name and literal values returned by the
parser are the lower-cased forms — no returned character is an ASCII
upper-case letter, for any input DDL text. -/
theorem outputs_are_lowercased :
    ∀ (sql : List Char) (c : EnumConstraint), c ∈ parseEnumConstraints sql →
      (∀ ch ∈ c.column, ¬(65 ≤ ch.toNat ∧ ch.toNat ≤ 90)) ∧
      (∀ v ∈ c.values, ∀ ch ∈ v, ¬(65 ≤ ch.toNat ∧ ch.toNat ≤ 90)) := by
  intro sql c hc
  obtain ⟨content, hcont, hpc⟩ := parseEnumConstraints_provenance hc
  have hsub := parseInConstraint_subset hpc
  exact ⟨fun ch hch => normalizeSql_no_upper sql ch (hcont ch (hsub.1 ch hch)),
         fun v hv ch hch => normalizeSql_no_upper sql ch (hcont ch (hsub.2 v hv ch hch))⟩

/-- Witness for the amended **C1** at the DDL `CHECK (Status IN ('A'))`. -/
theorem outputs_are_lowercased_witness :
    (⟨"status".toList, ["a".toList]⟩ : EnumConstraint) ∈
      parseEnumConstraints ("CHECK (Status IN ('A'))".toList) ∧
    (∀ ch ∈ "status".toList, ¬(65 ≤ ch.toNat ∧ ch.toNat ≤ 90)) :=
  ⟨by decide, (outputs_are_lowercased ("CHECK (Status IN ('A'))".toList)
    ⟨"status".toList, ["a".toList]⟩ (by decide)).1⟩

/-- **C2**: a span whose value list tokenizes to zero entries is not
recognized (every recognized constraint has a non-empty value list), the
registry never stores an empty list, and consequently every column's
`enumValues` in the enriched output is either `none` or a non-empty
sequence — never `some []`. -/
theorem enum_values_never_empty :
    (∀ (content : List Char) (c : EnumConstraint),
        parseInConstraint content = some c → c.values ≠ []) ∧
    (∀ (rows : List SqliteMasterRow) (k : List Char) (vs : List (List Char)),
        (introspectCheckConstraintEnums rows).get k = some vs → vs ≠ []) ∧
    (∀ (τ α : Type) (rows : List SqliteMasterRow) (tables : List (TableMetadata τ α)),
        ∀ t ∈ (introspect rows tables).tables, ∀ col ∈ t.columns,
          col.enumValues = none ∨ ∃ vs, vs ≠ [] ∧ col.enumValues = some vs) := by
  refine ⟨fun content c h => parseInConstraint_values_pos h, registry_get_ne_nil, ?_⟩
  intro τ α rows tables t ht col hcol
  rw [introspect, createDatabaseMetadata] at ht
  simp only [List.mem_map] at ht
  obtain ⟨rawT, _, rfl⟩ := ht
  simp only [List.mem_map] at hcol
  obtain ⟨rawC, _, rfl⟩ := hcol
  simp only
  cases hg : (introspectCheckConstraintEnums rows).get (rawT.name ++ '.' :: rawC.name) with
  | none => exact Or.inl rfl
  | some vs => exact Or.inr ⟨vs, registry_get_ne_nil rows _ vs hg, rfl⟩

/-- Witness for **C2** at `s in ('a')` and a one-row introspection. -/
theorem enum_values_never_empty_witness :
    parseInConstraint ("s in ('a')".toList) = some ⟨"s".toList, ["a".toList]⟩ ∧
    (⟨"s".toList, ["a".toList]⟩ : EnumConstraint).values ≠ [] ∧
    ((introspectCheckConstraintEnums [⟨"t".toList, some ("check (s in ('a'))".toList)⟩]).get
        ("t.s".toList) = some ["a".toList] ∧ (["a".toList] : List (List Char)) ≠ []) :=
  ⟨by decide,
   enum_values_never_empty.1 ("s in ('a')".toList) _ (by decide),
   by decide,
   enum_values_never_empty.2.1 [⟨"t".toList, some ("check (s in ('a'))".toList)⟩]
     ("t.s".toList) ["a".toList] (by decide)⟩

/-- **C8** counterexample: the code trims whitespace that came from
INSIDE quotes, contradicting "whitespace inside quotes is preserved":
tokenizing `' a '` yields `"a"`, not `" a "`. -/
theorem quoted_edge_ws_trimmed_counterexample :
    parseValueList ("' a '".toList) = ["a".toList] ∧
    ("a".toList : List Char) ≠ " a ".toList := by decide

/-- **C8** (amended): the tokenizer trims leading and trailing whitespace
of each accumulated value — whether the whitespace was quoted or not —
preserves interior whitespace, appends the final value only if non-empty
after trimming, and silently drops values that are empty after trimming
(e.g. from a stray trailing comma). -/
theorem tokenizer_trimming_amended :
    (∀ (w1 w2 v : List Char), w1.all jsIsSpace = true → w2.all jsIsSpace = true →
        jsTrim v = v → v ≠ [] → (∀ ch ∈ v, ch ≠ '"' ∧ ch ≠ '\'' ∧ ch ≠ ',') →
        parseValueList (w1 ++ v ++ w2) = [v]) ∧
    (∀ (w1 w2 v : List Char), w1.all jsIsSpace = true → w2.all jsIsSpace = true →
        jsTrim v = v → v ≠ [] → (∀ ch ∈ v, ch ≠ '\'') →
        parseValueList ('\'' :: ((w1 ++ v ++ w2) ++ ['\''])) = [v]) ∧
    parseValueList ("'a', ' b ' ,".toList) = ["a".toList, "b".toList] ∧
    parseValueList ("' a b '".toList) = ["a b".toList] ∧
    parseValueList ("   ".toList) = [] := by
  have hwsok : ∀ (w : List Char), w.all jsIsSpace = true →
      ∀ ch ∈ w, ch ≠ '"' ∧ ch ≠ '\'' ∧ ch ≠ ',' := by
    intro w hw ch hch
    exact space_ne_quote_comma ((List.all_eq_true.mp hw) ch hch)
  refine ⟨?_, ?_, by decide, by decide, by decide⟩
  · intro w1 w2 v h1 h2 hv hne hch
    rw [parseValueList]
    have hall : ∀ ch ∈ w1 ++ v ++ w2, ch ≠ '"' ∧ ch ≠ '\'' ∧ ch ≠ ',' := by
      intro ch hm
      rcases List.mem_append.mp hm with hm' | hm'
      · rcases List.mem_append.mp hm' with hm'' | hm''
        · exact hwsok w1 h1 ch hm''
        · exact hch ch hm''
      · exact hwsok w2 h2 ch hm'
    have := pvAux_unquoted_append (w1 ++ v ++ w2) [] [] hall
    rw [List.append_nil] at this
    rw [this]
    rw [pvAux, List.nil_append, jsTrim_sandwich h1 h2 hv]
    cases hv' : v with
    | nil => exact absurd hv' hne
    | cons a as => simp
  · intro w1 w2 v h1 h2 hv hne hch
    rw [parseValueList]
    have hstep : pvAux none [] ('\'' :: ((w1 ++ v ++ w2) ++ ['\''])) =
        pvAux (some '\'') [] ((w1 ++ v ++ w2) ++ ['\'']) := by
      cases hshape : (w1 ++ v ++ w2) ++ ['\''] with
      | nil => simp at hshape
      | cons a as =>
        rw [pvAux]
        rw [if_pos (by decide)]
    rw [hstep]
    have hallq : ∀ ch ∈ w1 ++ v ++ w2, ch ≠ '\'' := by
      intro ch hm
      rcases List.mem_append.mp hm with hm' | hm'
      · rcases List.mem_append.mp hm' with hm'' | hm''
        · exact (hwsok w1 h1 ch hm'').2.1
        · exact hch ch hm''
      · exact (hwsok w2 h2 ch hm').2.1
    rw [pvAux_quoted_append _ _ _ _ hallq]
    rw [List.nil_append, pvAux]
    simp only [if_pos rfl]
    rw [pvAux, jsTrim_sandwich h1 h2 hv]
    cases hv' : v with
    | nil => exact absurd hv' hne
    | cons a as => simp

/-- Witness for the amended **C8**: an unquoted value wrapped in spaces,
and a fully quoted value with edge whitespace inside the quotes. -/
theorem tokenizer_trimming_amended_witness :
    parseValueList ([' '] ++ "a".toList ++ []) = ["a".toList] ∧
    parseValueList ('\'' :: (([' '] ++ "a".toList ++ [' ']) ++ ['\''])) = ["a".toList] :=
  ⟨tokenizer_trimming_amended.1 [' '] [] ("a".toList)
     (by decide) (by decide) (by decide) (by decide) (by decide),
   tokenizer_trimming_amended.2.1 [' '] [' '] ("a".toList)
     (by decide) (by decide) (by decide) (by decide) (by decide)⟩

/-- **C9**: enrichment is a pure projection — every table's and column's
fields other than `enumValues` are carried through unchanged, and each
output column carries exactly the added `enumValues` field, equal to the
registry lookup of `tableName ++ "." ++ columnName`. -/
theorem enricher_pure_projection :
    ∀ (τ α : Type) (enums : EnumCollection) (tables : List (TableMetadata τ α)),
      ((createDatabaseMetadata enums tables).tables).map
          (fun t => (t.name, t.rest, t.columns.map (fun c => (c.name, c.rest)))) =
        tables.map (fun t => (t.name, t.rest, t.columns.map (fun c => (c.name, c.rest)))) ∧
      ∀ t ∈ (createDatabaseMetadata enums tables).tables, ∀ col ∈ t.columns,
        col.enumValues = enums.get (t.name ++ '.' :: col.name) := by
  intro τ α enums tables
  constructor
  · rw [createDatabaseMetadata]
    simp only [List.map_map]
    apply List.map_congr_left
    intro t _
    simp [Function.comp, List.map_map]
  · intro t ht col hcol
    rw [createDatabaseMetadata] at ht
    simp only [List.mem_map] at ht
    obtain ⟨rawT, _, rfl⟩ := ht
    simp only [List.mem_map] at hcol
    obtain ⟨rawC, _, rfl⟩ := hcol
    rfl

/-- Witness for **C9** on a one-table, one-column input. -/
theorem enricher_pure_projection_witness :
    ((⟨"c".toList, 0, none⟩ : EnrichedColumn Nat) ∈
        (⟨"t".toList, [⟨"c".toList, 0, none⟩], 0⟩ : EnrichedTable Nat Nat).columns) ∧
    (⟨"c".toList, 0, none⟩ : EnrichedColumn Nat).enumValues =
      EnumCollection.empty.get (("t".toList) ++ '.' :: ("c".toList)) :=
  ⟨by decide,
   (enricher_pure_projection Nat Nat EnumCollection.empty
       [⟨"t".toList, [⟨"c".toList, 0⟩], 0⟩]).2
     ⟨"t".toList, [⟨"c".toList, 0, none⟩], 0⟩ (by decide)
     ⟨"c".toList, 0, none⟩ (by decide)⟩

/-- **C6**: for every well-formed span `<col> in (v1, v2, ...)` (a valid
identifier, at least one value, each value non-empty, trim-stable,
quote-free and line-terminator-free), recognition returns
`{column := col, values := [v1, v2, ...]}` with the values in source
order — sorting happens later, in the registry builder. -/
theorem recognizer_wellformed_source_order :
    ∀ (c0 : Char) (cs : List Char) (vs : List (List Char)),
    isIdentStart c0 = true → cs.all isWordChar = true → vs ≠ [] →
    (∀ v ∈ vs, v ≠ [] ∧ jsTrim v = v ∧ ∀ ch ∈ v, ch ≠ '\'' ∧ jsIsLineTerm ch = false) →
    parseInConstraint (wellFormedInSpan (c0 :: cs) vs) = some ⟨c0 :: cs, vs⟩ := by
  intro c0 cs vs hc0 hcs hvs hv
  rw [parseInConstraint]
  rw [matchInPattern_wellFormed c0 cs vs hc0 hcs hvs
    (fun v hvm ch hch => ((hv v hvm).2.2 ch hch).2)]
  simp only
  rw [parseValueList, parseValueList_literal_aux vs [] hvs rfl
    (fun v hvm => ⟨(hv v hvm).1, (hv v hvm).2.1,
      fun ch hch => ((hv v hvm).2.2 ch hch).1⟩)]
  rw [if_pos (List.length_pos.mpr hvs)]

/-- Witness for **C6**: the span `s in ('a', 'b')`. -/
theorem recognizer_wellformed_source_order_witness :
    parseInConstraint (wellFormedInSpan ('s' :: []) ["a".toList, "b".toList]) =
      some ⟨'s' :: [], ["a".toList, "b".toList]⟩ ∧
    wellFormedInSpan ('s' :: []) ["a".toList, "b".toList] = "s in ('a', 'b')".toList :=
  ⟨recognizer_wellformed_source_order 's' [] ["a".toList, "b".toList]
     (by decide) (by decide) (by decide) (by decide),
   by decide⟩

theorem space_not_identStart {c : Char} (h : jsIsSpace c = true) :
    isIdentStart c = false := by
  cases hi : isIdentStart c
  · rfl
  · rw [identStart_not_space hi] at h
    cases h

theorem space_not_wordChar {c : Char} (h : jsIsSpace c = true) :
    isWordChar c = false := by
  cases hi : isWordChar c
  · rfl
  · rw [wordChar_not_space hi] at h
    cases h

theorem dropWhile_eq_nil_of_all {p : Char → Bool} {w : List Char}
    (hw : w.all p = true) : w.dropWhile p = [] := by
  rw [List.dropWhile_eq_nil_iff]
  intro ch hch
  exact (List.all_eq_true.mp hw) ch hch

theorem dropWhile_wc_of_ws {w : List Char} (hw : w.all jsIsSpace = true) :
    w.dropWhile isWordChar = w := by
  cases w with
  | nil => rfl
  | cons c w' =>
    rw [List.dropWhile_cons_of_neg]
    simp [space_not_wordChar ((List.all_eq_true.mp hw) c (by simp))]

theorem takeWhile_wc_append_ws {r1 w : List Char} (hw : w.all jsIsSpace = true) :
    (r1 ++ w).takeWhile isWordChar = r1.takeWhile isWordChar := by
  rw [List.takeWhile_append]
  by_cases h : (r1.takeWhile isWordChar).length = r1.length
  · rw [if_pos h]
    have heq : r1.takeWhile isWordChar = r1 :=
      (List.takeWhile_prefix _).eq_of_length h
    have hnil : w.takeWhile isWordChar = [] := by
      cases w with
      | nil => rfl
      | cons c w' =>
        rw [List.takeWhile_cons_of_neg]
        simp [space_not_wordChar ((List.all_eq_true.mp hw) c (by simp))]
    rw [hnil, List.append_nil, heq]
  · rw [if_neg h]

theorem matchAfterLeadWs_append_ws : ∀ (x w : List Char), w.all jsIsSpace = true →
    matchAfterLeadWs (x ++ w) = matchAfterLeadWs x := by
  intro x w hw
  cases x with
  | nil =>
    simp only [List.nil_append]
    rw [matchAfterLeadWs.eq_def]
    cases w with
    | nil => rfl
    | cons cw w' =>
      simp only
      rw [if_neg (by simp [space_not_identStart ((List.all_eq_true.mp hw) cw (by simp))])]
      rfl
  | cons c r1 =>
    rw [List.cons_append]
    rw [matchAfterLeadWs.eq_def, matchAfterLeadWs.eq_def]
    simp only
    by_cases hid : isIdentStart c = true
    case neg => rw [if_neg hid, if_neg hid]
    case pos =>
    rw [if_pos hid, if_pos hid]
    rw [takeWhile_wc_append_ws hw]
    rw [List.dropWhile_append]
    cases hd : r1.dropWhile isWordChar with
    | nil =>
      simp only [List.isEmpty_nil, if_true]
      rw [dropWhile_wc_of_ws hw]
      cases w with
      | nil => rfl
      | cons cw w' =>
        simp only
        rw [if_pos ((List.all_eq_true.mp hw) cw (by simp))]
        rw [dropWhile_eq_nil_of_all (by
          rw [List.all_eq_true]
          intro ch hch
          exact (List.all_eq_true.mp hw) ch (List.mem_cons_of_mem _ hch))]
    | cons c2 r2 =>
      simp only [List.isEmpty_cons, Bool.false_eq_true, if_false]
      rw [List.cons_append]
      simp only
      by_cases hws2 : jsIsSpace c2 = true
      case neg => rw [if_neg (by simp [hws2]), if_neg (by simp [hws2])]
      case pos =>
      rw [if_pos hws2, if_pos hws2]
      rw [List.dropWhile_append]
      cases hd3 : r2.dropWhile jsIsSpace with
      | nil =>
        simp only [List.isEmpty_nil, if_true]
        rw [dropWhile_eq_nil_of_all hw]
      | cons d d3 =>
        simp only [List.isEmpty_cons, Bool.false_eq_true, if_false]
        rw [List.cons_append]
        cases d3 with
        | nil =>
          simp only [List.nil_append]
          cases w with
          | nil => rfl
          | cons cw w' =>
            simp only
            rw [if_neg]
            intro hcon
            have hn : cw = 'n' := hcon.2
            subst hn
            have := (List.all_eq_true.mp hw) 'n' (by simp)
            revert this
            decide
        | cons d2 d4 =>
          simp only [List.cons_append]
          by_cases hin : d = 'i' ∧ d2 = 'n'
          case neg => rw [if_neg hin, if_neg hin]
          case pos =>
          rw [if_pos hin, if_pos hin]
          rw [List.dropWhile_append]
          cases he : d4.dropWhile jsIsSpace with
          | nil =>
            simp only [List.isEmpty_nil, if_true]
            rw [dropWhile_eq_nil_of_all hw]
          | cons e e4 =>
            simp only [List.isEmpty_cons, Bool.false_eq_true, if_false]
            rw [List.cons_append]
            simp only
            by_cases hep : e = '('
            case neg => rw [if_neg hep, if_neg hep]
            case pos =>
            rw [if_pos hep, if_pos hep]
            rw [List.reverse_append]
            have hwr : w.reverse.all jsIsSpace = true := by
              rw [List.all_eq_true]
              intro ch hch
              exact (List.all_eq_true.mp hw) ch (List.mem_reverse.mp hch)
            rw [dropWhile_ws_append hwr]

theorem jsTrim_eq_strip (l : List Char) :
    jsTrim l = stripTrailWs (l.dropWhile jsIsSpace) := rfl

theorem dropWhile_head_not {p : Char → Bool} : ∀ (l : List Char) (c : Char) (t : List Char),
    l.dropWhile p = c :: t → p c = false := by
  intro l
  induction l with
  | nil => intro c t h; cases h
  | cons a l' ih =>
    intro c t h
    rw [List.dropWhile_cons] at h
    split at h
    · exact ih c t h
    next hneg =>
      injection h with h1 _
      subst h1
      simpa using hneg

theorem stripTrailWs_decomp (x : List Char) :
    ∃ w, x = stripTrailWs x ++ w ∧ w.all jsIsSpace = true := by
  refine ⟨(x.reverse.takeWhile jsIsSpace).reverse, ?_, ?_⟩
  · have h2 : x = (List.takeWhile jsIsSpace x.reverse ++ List.dropWhile jsIsSpace x.reverse).reverse := by
      rw [List.takeWhile_append_dropWhile, List.reverse_reverse]
    conv_lhs => rw [h2]
    rw [List.reverse_append]
    rfl
  · rw [List.all_eq_true]
    intro ch hch
    rw [List.mem_reverse] at hch
    exact List.mem_takeWhile_imp hch

theorem stripTrailWs_last {x : List Char} (h : stripTrailWs x ≠ []) :
    ∃ pre e, stripTrailWs x = pre ++ [e] ∧ jsIsSpace e = false := by
  cases hd : x.reverse.dropWhile jsIsSpace with
  | nil =>
    exfalso
    apply h
    rw [stripTrailWs, hd]
    rfl
  | cons c t =>
    refine ⟨t.reverse, c, ?_, dropWhile_head_not _ _ _ hd⟩
    rw [stripTrailWs, hd]
    simp

theorem tryCapture_strip : ∀ (pre : List Char) (e : Char) (w : List Char),
    jsIsSpace e = false → w.all jsIsSpace = true →
    (∀ ch ∈ pre ++ [e], jsIsLineTerm ch = false) →
    tryCapture ((pre ++ [e]) ++ w) = some (pre ++ [e]) := by
  intro pre
  induction pre with
  | nil =>
    intro e w hwse hw hlt
    simp only [List.nil_append, List.cons_append]
    rw [tryCapture]
    rw [if_neg (by simp [hlt e (by simp)])]
    rw [if_pos hw]
  | cons c pre' ih =>
    intro e w hwse hw hlt
    rw [List.cons_append, List.cons_append, tryCapture]
    rw [if_neg (by simp [hlt c (by simp)])]
    have hrest : ¬ ((pre' ++ [e]) ++ w).all jsIsSpace = true := by
      intro hall
      rw [List.all_eq_true] at hall
      rw [hall e (by simp)] at hwse
      cases hwse
    rw [if_neg hrest]
    rw [ih e w hwse hw (fun ch hch => hlt ch (List.mem_cons_of_mem _ hch))]
    rfl

theorem quote_guard_not_space {c : Char}
    (h : (decide (c = '"') || decide (c = '\'')) = true) : jsIsSpace c = false := by
  simp only [Bool.or_eq_true, decide_eq_true_eq] at h
  rcases h with h | h <;> subst h <;> decide

theorem pvAux_ws_cur : ∀ (st : Option Char) (cur s : List Char),
    ∀ w : List Char, w.all jsIsSpace = true →
    pvAux st (w ++ cur) s = pvAux st cur s := by
  intro st cur s
  induction st, cur, s using pvAux.induct with
  | case1 st cur hx =>
    intro w hw
    rw [pvAux, pvAux, jsTrim_ws_append hw]
  | case2 st cur hx =>
    intro w hw
    rw [pvAux, pvAux, jsTrim_ws_append hw]
  | case3 cur c rest hguard ih =>
    intro w hw
    conv_lhs => rw [pvAux]
    conv_rhs => rw [pvAux]
    rw [if_pos hguard, if_pos hguard]
    exact ih w hw
  | case4 cur rest hx hguard ih =>
    intro w hw
    conv_lhs => rw [pvAux]
    conv_rhs => rw [pvAux]
    rw [if_neg hguard, if_neg hguard, if_pos rfl, if_pos rfl]
    rw [jsTrim_ws_append hw]
  | case5 cur rest hguard hx ih =>
    intro w hw
    conv_lhs => rw [pvAux]
    conv_rhs => rw [pvAux]
    rw [if_neg hguard, if_neg hguard, if_pos rfl, if_pos rfl]
    rw [jsTrim_ws_append hw]
  | case6 cur c rest hguard hc ih =>
    intro w hw
    conv_lhs => rw [pvAux]
    conv_rhs => rw [pvAux]
    rw [if_neg hguard, if_neg hguard, if_neg hc, if_neg hc]
    rw [List.append_assoc]
    exact ih w hw
  | case7 cur c ih =>
    intro w hw
    conv_lhs => rw [pvAux]
    conv_rhs => rw [pvAux]
    rw [if_pos rfl, if_pos rfl]
    exact ih w hw
  | case8 q cur c hc ih =>
    intro w hw
    conv_lhs => rw [pvAux]
    conv_rhs => rw [pvAux]
    rw [if_neg hc, if_neg hc]
    rw [List.append_assoc]
    exact ih w hw
  | case9 cur c2 rest2 ih =>
    intro w hw
    conv_lhs => rw [pvAux]
    conv_rhs => rw [pvAux]
    rw [if_pos rfl, if_pos rfl, if_pos rfl, if_pos rfl]
    rw [List.append_assoc]
    exact ih w hw
  | case10 cur c c2 rest2 hc ih =>
    intro w hw
    conv_lhs => rw [pvAux]
    conv_rhs => rw [pvAux]
    rw [if_pos rfl, if_pos rfl, if_neg hc, if_neg hc]
    exact ih w hw
  | case11 q cur c c2 rest2 hc ih =>
    intro w hw
    conv_lhs => rw [pvAux]
    conv_rhs => rw [pvAux]
    rw [if_neg hc, if_neg hc]
    rw [List.append_assoc]
    exact ih w hw

theorem space_ne_quote {q c : Char} (hq : jsIsSpace q = false)
    (hc : jsIsSpace c = true) : c ≠ q := by
  intro he
  subst he
  rw [hc] at hq
  cases hq

theorem pvAux_ws_input : ∀ (w : List Char) (st : Option Char) (cur : List Char),
    (∀ q, st = some q → jsIsSpace q = false) → w.all jsIsSpace = true →
    pvAux st cur w = pvAux st cur [] := by
  intro w
  induction w with
  | nil => intro st cur _ _; rfl
  | cons c w' ih =>
    intro st cur hst hw
    have hcws : jsIsSpace c = true := (List.all_eq_true.mp hw) c (by simp)
    have hw' : w'.all jsIsSpace = true := by
      rw [List.all_eq_true]
      intro ch hch
      exact (List.all_eq_true.mp hw) ch (List.mem_cons_of_mem _ hch)
    obtain ⟨hq1, hq2, hq3⟩ := space_ne_quote_comma hcws
    cases st with
    | none =>
      rw [pvAux_unquoted_step hq1 hq2 hq3]
      rw [ih none (cur ++ [c]) (fun q hq => by cases hq) hw']
      rw [pvAux, pvAux, jsTrim_append_ws (by simp [hcws])]
    | some q =>
      have hcq : c ≠ q := space_ne_quote (hst q rfl) hcws
      rw [pvAux_quoted_step hcq]
      rw [ih (some q) (cur ++ [c]) hst hw']
      rw [pvAux, pvAux, jsTrim_append_ws (by simp [hcws])]

theorem pvAux_input_append_ws : ∀ (st : Option Char) (cur s : List Char),
    ∀ w : List Char, (∀ q, st = some q → jsIsSpace q = false) →
    w.all jsIsSpace = true →
    pvAux st cur (s ++ w) = pvAux st cur s := by
  intro st cur s
  induction st, cur, s using pvAux.induct with
  | case1 st cur hx =>
    intro w hst hw
    rw [List.nil_append]
    exact pvAux_ws_input w st cur hst hw
  | case2 st cur hx =>
    intro w hst hw
    rw [List.nil_append]
    exact pvAux_ws_input w st cur hst hw
  | case3 cur c rest hguard ih =>
    intro w hst hw
    rw [List.cons_append]
    conv_lhs => rw [pvAux]
    conv_rhs => rw [pvAux]
    rw [if_pos hguard, if_pos hguard]
    exact ih w (fun q hq => by injection hq with hq; subst hq; exact quote_guard_not_space hguard) hw
  | case4 cur rest hx hguard ih =>
    intro w hst hw
    rw [List.cons_append]
    conv_lhs => rw [pvAux]
    conv_rhs => rw [pvAux]
    rw [if_neg hguard, if_neg hguard, if_pos rfl, if_pos rfl, hx]
    exact ih w (fun q hq => by cases hq) hw
  | case5 cur rest hguard hx ih =>
    intro w hst hw
    rw [List.cons_append]
    conv_lhs => rw [pvAux]
    conv_rhs => rw [pvAux]
    rw [if_neg hguard, if_neg hguard, if_pos rfl, if_pos rfl]
    cases hjt : jsTrim cur with
    | nil => exact absurd hjt hx
    | cons t ts =>
      rw [ih w (fun q hq => by cases hq) hw]
  | case6 cur c rest hguard hc ih =>
    intro w hst hw
    rw [List.cons_append]
    conv_lhs => rw [pvAux]
    conv_rhs => rw [pvAux]
    rw [if_neg hguard, if_neg hguard, if_neg hc, if_neg hc]
    exact ih w hst hw
  | case7 cur c ih =>
    intro w hst hw
    rw [List.cons_append, List.nil_append]
    conv_rhs => rw [pvAux]
    rw [if_pos rfl]
    cases hwshape : w with
    | nil =>
      conv_lhs => rw [pvAux]
      rw [if_pos rfl]
    | cons cw w' =>
      have hcw : jsIsSpace cw = true := by
        rw [hwshape] at hw
        exact (List.all_eq_true.mp hw) cw (by simp)
      have hne : cw ≠ c := space_ne_quote (hst c rfl) hcw
      conv_lhs => rw [pvAux]
      rw [if_pos rfl, if_neg hne]
      rw [← hwshape]
      exact pvAux_ws_input w none cur (fun q hq => by cases hq) hw
  | case8 q cur c hc ih =>
    intro w hst hw
    rw [List.cons_append, List.nil_append]
    conv_lhs => rw [pvAux_quoted_step hc]
    conv_rhs => rw [pvAux_quoted_step hc]
    exact pvAux_ws_input w (some q) (cur ++ [c]) hst hw
  | case9 cur c2 rest2 ih =>
    intro w hst hw
    rw [List.cons_append, List.cons_append]
    conv_lhs => rw [pvAux]
    conv_rhs => rw [pvAux]
    rw [if_pos rfl, if_pos rfl, if_pos rfl, if_pos rfl]
    exact ih w hst hw
  | case10 cur c c2 rest2 hc ih =>
    intro w hst hw
    rw [List.cons_append, List.cons_append]
    conv_lhs => rw [pvAux]
    conv_rhs => rw [pvAux]
    rw [if_pos rfl, if_pos rfl, if_neg hc, if_neg hc]
    rw [← List.cons_append]
    exact ih w (fun q hq => by cases hq) hw
  | case11 q cur c c2 rest2 hc ih =>
    intro w hst hw
    rw [List.cons_append, List.cons_append]
    conv_lhs => rw [pvAux]
    conv_rhs => rw [pvAux]
    rw [if_neg hc, if_neg hc]
    rw [← List.cons_append]
    exact ih w hst hw

theorem tryCapture_isSome : ∀ (u : List Char), u ≠ [] →
    (∀ ch ∈ u, jsIsLineTerm ch = false) → (tryCapture u).isSome = true := by
  intro u
  induction u with
  | nil => intro h _; exact absurd rfl h
  | cons c rest ih =>
    intro _ hlt
    rw [tryCapture]
    rw [if_neg (by simp [hlt c (by simp)])]
    by_cases hall : rest.all jsIsSpace = true
    · rw [if_pos hall]
      rfl
    · rw [if_neg hall]
      have hrne : rest ≠ [] := by
        intro he
        subst he
        exact hall rfl
      have := ih hrne (fun ch hch => hlt ch (List.mem_cons_of_mem _ hch))
      cases htc : tryCapture rest with
      | none => rw [htc] at this; cases this
      | some cap => rfl

theorem parseValueList_all_ws {u : List Char} (hu : u.all jsIsSpace = true) :
    parseValueList u = [] := by
  rw [parseValueList, pvAux_ws_input u none [] (fun q hq => by cases hq) hu]
  rfl

theorem tryCapture_parseValueList : ∀ (u cap : List Char),
    tryCapture u = some cap → (∀ ch ∈ u, jsIsLineTerm ch = false) →
    parseValueList cap = parseValueList u := by
  intro u cap htc hlt
  by_cases hstrip : stripTrailWs u = []
  · -- u is all whitespace
    obtain ⟨w, hdecomp, hwall⟩ := stripTrailWs_decomp u
    rw [hstrip, List.nil_append] at hdecomp
    subst hdecomp
    cases hw : u with
    | nil => rw [hw] at htc; cases htc
    | cons c w' =>
      rw [hw] at htc hwall hlt
      rw [tryCapture] at htc
      rw [if_neg (by simp [hlt c (by simp)])] at htc
      rw [if_pos (by
        rw [List.all_eq_true]
        intro ch hch
        exact (List.all_eq_true.mp hwall) ch (List.mem_cons_of_mem _ hch))] at htc
      injection htc with htc
      subst htc
      rw [parseValueList_all_ws hwall]
      rw [parseValueList_all_ws (by
        simp only [List.all_cons, Bool.and_eq_true]
        exact ⟨(List.all_eq_true.mp hwall) c (by simp), rfl⟩)]
  · obtain ⟨w, hdecomp, hwall⟩ := stripTrailWs_decomp u
    obtain ⟨pre, e, hpe, hews⟩ := stripTrailWs_last hstrip
    have hlt2 : ∀ ch ∈ pre ++ [e], jsIsLineTerm ch = false := by
      intro ch hch
      apply hlt
      rw [hdecomp, hpe]
      exact List.mem_append.mpr (Or.inl hch)
    have htc2 : tryCapture u = some (pre ++ [e]) := by
      rw [hdecomp, hpe]
      exact tryCapture_strip pre e w hews hwall hlt2
    rw [htc] at htc2
    injection htc2 with htc2
    subst htc2
    rw [← hpe]
    conv_rhs => rw [hdecomp]
    rw [parseValueList, parseValueList]
    rw [pvAux_input_append_ws none [] (stripTrailWs u) w (fun q hq => by cases hq) hwall]

theorem matchWsCapture_none : ∀ (u : List Char),
    (∀ ch ∈ u, jsIsLineTerm ch = false) → matchWsCapture u = none → u = [] := by
  intro u
  induction u with
  | nil => intro _ _; rfl
  | cons c rest ih =>
    intro hlt h
    exfalso
    rw [matchWsCapture] at h
    have hsome := tryCapture_isSome (c :: rest) (by simp) hlt
    split at h
    · cases hm : matchWsCapture rest with
      | some cap =>
        rw [hm] at h
        have h2 : (some cap : Option (List Char)) = none := h
        cases h2
      | none =>
        rw [hm] at h
        have h2 : tryCapture (c :: rest) = none := h
        rw [h2] at hsome
        cases hsome
    · rw [h] at hsome
      cases hsome

theorem matchWsCapture_parseValueList : ∀ (u cap : List Char),
    (∀ ch ∈ u, jsIsLineTerm ch = false) → matchWsCapture u = some cap →
    parseValueList cap = parseValueList u := by
  intro u
  induction u with
  | nil => intro cap _ h; cases h
  | cons c rest ih =>
    intro cap hlt h
    rw [matchWsCapture] at h
    split at h
    next hws =>
      cases hm : matchWsCapture rest with
      | some cap' =>
        rw [hm] at h
        have h : (some cap' : Option (List Char)) = some cap := h
        injection h with h
        subst h
        rw [ih cap' (fun ch hch => hlt ch (List.mem_cons_of_mem _ hch)) hm]
        rw [parseValueList, parseValueList]
        rw [pvAux_unquoted_step (space_ne_quote_comma hws).1
          (space_ne_quote_comma hws).2.1 (space_ne_quote_comma hws).2.2]
        rw [show ([] : List Char) ++ [c] = [c] ++ [] by simp]
        rw [pvAux_ws_cur none [] rest [c] (by simp [hws])]
      | none =>
        rw [hm] at h
        have h : tryCapture (c :: rest) = some cap := h
        exact tryCapture_parseValueList _ _ h hlt
    next hws =>
      exact tryCapture_parseValueList _ _ h hlt

theorem asciiLower_of_not_upper {c : Char} (h : ¬(65 ≤ c.toNat ∧ c.toNat ≤ 90)) :
    asciiLower c = c := by
  rw [asciiLower, if_neg]
  intro hb
  simp only [Bool.and_eq_true, decide_eq_true_eq] at hb
  exact h hb

theorem parseInConstraint_eq_specRecognize :
    ∀ (span : List Char),
    (∀ ch ∈ span, ¬(65 ≤ ch.toNat ∧ ch.toNat ≤ 90)) →
    (∀ ch ∈ span, jsIsLineTerm ch = false) →
    parseInConstraint span = specRecognize span := by
  intro span hup hlt
  rw [parseInConstraint, specRecognize, matchInPattern]
  obtain ⟨w2, hdec, hw2⟩ := stripTrailWs_decomp (span.dropWhile jsIsSpace)
  have hjt : jsTrim span = stripTrailWs (span.dropWhile jsIsSpace) := rfl
  rw [← hjt] at hdec
  rw [hdec, matchAfterLeadWs_append_ws _ _ hw2]
  have hsubT : ∀ ch ∈ jsTrim span, ch ∈ span := jsTrim_subset
  rw [matchAfterLeadWs.eq_def]
  cases ht : jsTrim span with
  | nil => rfl
  | cons c r1 =>
    have hsub1 : ∀ ch ∈ r1, ch ∈ span := by
      intro ch hch
      apply hsubT
      rw [ht]
      exact List.mem_cons_of_mem _ hch
    simp only
    by_cases hid : isIdentStart c = true
    case neg => rw [if_neg hid, if_neg hid]
    case pos =>
    rw [if_pos hid, if_pos hid]
    cases hs2 : r1.dropWhile isWordChar with
    | nil => rfl
    | cons c2 r2 =>
      have hsub2 : ∀ ch ∈ r2, ch ∈ span := by
        intro ch hch
        apply hsub1
        have : ch ∈ r1.dropWhile isWordChar := by
          rw [hs2]; exact List.mem_cons_of_mem _ hch
        exact List.dropWhile_subset _ this
      simp only
      by_cases hws2 : jsIsSpace c2 = true
      case neg => rw [if_neg hws2, if_neg hws2]
      case pos =>
      rw [if_pos hws2, if_pos hws2]
      cases hs3 : r2.dropWhile jsIsSpace with
      | nil => rfl
      | cons ci1 rest3 =>
        cases rest3 with
        | nil => rfl
        | cons ci2 s4 =>
          have hm3 : ∀ ch ∈ ci1 :: ci2 :: s4, ch ∈ span := by
            intro ch hch
            apply hsub2
            rw [← hs3] at hch
            exact List.dropWhile_subset _ hch
          have hsub4 : ∀ ch ∈ s4, ch ∈ span :=
            fun ch hch => hm3 ch (List.mem_cons_of_mem _ (List.mem_cons_of_mem _ hch))
          have hci1 : asciiLower ci1 = ci1 :=
            asciiLower_of_not_upper (hup ci1 (hm3 ci1 (by simp)))
          have hci2 : asciiLower ci2 = ci2 :=
            asciiLower_of_not_upper (hup ci2 (hm3 ci2 (by simp)))
          simp only
          rw [hci1, hci2]
          by_cases hin : ci1 = 'i' ∧ ci2 = 'n'
          case neg => rw [if_neg hin, if_neg hin]
          case pos =>
          rw [if_pos hin, if_pos hin]
          cases hs5 : s4.dropWhile jsIsSpace with
          | nil => rfl
          | cons cp r5 =>
            have hsub5 : ∀ ch ∈ r5, ch ∈ span := by
              intro ch hch
              apply hsub4
              have : ch ∈ s4.dropWhile jsIsSpace := by
                rw [hs5]; exact List.mem_cons_of_mem _ hch
              exact List.dropWhile_subset _ this
            simp only
            by_cases hcp : cp = '('
            case neg => rw [if_neg hcp, if_neg hcp]
            case pos =>
            rw [if_pos hcp, if_pos hcp]
            cases hgl : r5.getLast? with
            | none =>
              have hr5nil : r5 = [] := List.getLast?_eq_none_iff.mp hgl
              rw [hr5nil]
              rfl
            | some e =>
              obtain ⟨l5, hl5⟩ := List.getLast?_eq_some_iff.mp hgl
              -- e is the last character of the trimmed span, hence not whitespace
              have hsfx : r5 <:+ jsTrim span := by
                rw [ht]
                have t1 : r5 <:+ cp :: r5 := List.suffix_cons _ _
                have t2 : cp :: r5 <:+ s4 := hs5 ▸ List.dropWhile_suffix _
                have t3 : s4 <:+ ci1 :: ci2 :: s4 :=
                  (List.suffix_cons _ _).trans (List.suffix_cons _ _)
                have t4 : ci1 :: ci2 :: s4 <:+ r2 := hs3 ▸ List.dropWhile_suffix _
                have t5 : r2 <:+ c2 :: r2 := List.suffix_cons _ _
                have t6 : c2 :: r2 <:+ r1 := hs2 ▸ List.dropWhile_suffix _
                have t7 : r1 <:+ c :: r1 := List.suffix_cons _ _
                exact ((((((t1.trans t2).trans t3).trans t4).trans t5).trans t6).trans t7)
              have hews : jsIsSpace e = false := by
                have htne : stripTrailWs (span.dropWhile jsIsSpace) ≠ [] := by
                  rw [← hjt, ht]
                  simp
                obtain ⟨preT, eT, hpeT, heTws⟩ := stripTrailWs_last htne
                have hgt : (jsTrim span).getLast? = some eT := by
                  rw [hjt, hpeT]
                  exact List.getLast?_concat _
                obtain ⟨p5, hp5⟩ := hsfx
                have : (jsTrim span).getLast? = some e := by
                  rw [← hp5, List.getLast?_append, hl5, List.getLast?_concat]
                  rfl
                rw [this] at hgt
                injection hgt with hgt
                rw [hgt]
                exact heTws
              rw [hl5]
              rw [List.reverse_append, List.reverse_singleton, List.singleton_append]
              rw [List.dropWhile_cons_of_neg (by simp [hews])]
              simp only
              by_cases hcr : e = ')'
              case neg => rw [if_neg hcr, if_neg hcr]
              case pos =>
              rw [if_pos hcr, if_pos hcr]
              rw [List.reverse_reverse, List.dropLast_concat]
              have hltl5 : ∀ ch ∈ l5, jsIsLineTerm ch = false := by
                intro ch hch
                apply hlt
                apply hsub5
                rw [hl5]
                exact List.mem_append.mpr (Or.inl hch)
              cases hcap : matchWsCapture l5 with
              | none =>
                have hl5nil : l5 = [] := matchWsCapture_none l5 hltl5 hcap
                subst hl5nil
                rfl
              | some cap =>
                have hpv : parseValueList cap = parseValueList l5 :=
                  matchWsCapture_parseValueList l5 cap hltl5 hcap
                simp only [Option.map_some']
                rw [hpv]

/-- **C7**: on every span free of ASCII upper-case letters and line
terminators — which, as also proved here, covers every character of the
normalized lower-cased text the scanner feeds it — recognition accepts
exactly the spans matching the spec pattern
`<identifier> <ws> IN <opt-ws> ( <body> )` (with `<body>` running to the
final `)` and nothing after it), returning the same constraint as the
spec-worded recognizer; non-membership spans such as BETWEEN yield none
and produce no registry entry. -/
theorem recognizer_matches_spec_pattern :
    (∀ span : List Char,
        (∀ ch ∈ span, ¬(65 ≤ ch.toNat ∧ ch.toNat ≤ 90)) →
        (∀ ch ∈ span, jsIsLineTerm ch = false) →
        parseInConstraint span = specRecognize span) ∧
    (∀ sql : List Char, ∀ ch ∈ normalizeSql sql,
        ¬(65 ≤ ch.toNat ∧ ch.toNat ≤ 90) ∧ jsIsLineTerm ch = false) ∧
    parseInConstraint ("priority between 1 and 5".toList) = none ∧
    (introspectCheckConstraintEnums
        [⟨"t".toList, some ("check (priority between 1 and 5)".toList)⟩]).get
      ("t.priority".toList) = none :=
  ⟨parseInConstraint_eq_specRecognize,
   fun sql ch hch => ⟨normalizeSql_no_upper sql ch hch, normalizeSql_no_lineTerm sql ch hch⟩,
   by decide, by decide⟩

/-- Witness for **C7** at the concrete span `status in ('a','b')`. -/
theorem recognizer_matches_spec_pattern_witness :
    parseInConstraint ("status in ('a','b')".toList) =
      specRecognize ("status in ('a','b')".toList) :=
  recognizer_matches_spec_pattern.1 ("status in ('a','b')".toList)
    (by decide) (by decide)

end KyselyCodegen
